import Mathlib

/-!
Shallow embedding of the `yukari` chess engine (crates `yukari-movegen` and
`yukari`) and proofs about the claims of its specification.

Sources embedded from `src/`:
  * `yukari-movegen/src/board/mod.rs`  (`Board`, FEN parsing, `make`, move
    generation, `static_exchange_evaluation`)
  * `yukari-movegen/src/board/data.rs` (`BoardData`, attack-table updates)
  * `yukari-movegen/src/board/eval.rs` (NNUE feature indexing)
  * `yukari/src/search.rs`             (`quiesce`, move ordering, `search`)

The repository declares several modules whose files are absent from `src/`
(`bitlist.rs`, `index.rs`, `piecelist.rs`, `piecemask.rs`, `pins.rs`,
`zobrist.rs`, `square.rs`, `chessmove.rs`, `piece.rs`, `colour.rs`, and the
NNUE weight binary).  Definitions replacing those carry a doc comment
starting with `Modelled from the spec:`.

Conventions of the embedding:
  * machine integers are `Nat`/`Int`; `u32` bit sets are `Nat` values kept
    below `2^32` by construction; wrapping is written out where it matters;
  * Rust code that can panic is embedded as `Option`-returning (a `none`
    result means the Rust original panics), and FEN parsing uses an explicit
    `Panics` result type since panic behaviour is itself under test;
  * loops are embedded as fuel-indexed recursions with the fuel chosen so
    that exhaustion is unreachable for the states the source can reach.
-/

set_option maxRecDepth 10000

namespace Yukari

/-- Modelled from the spec: `colour.rs` is missing from `src/`.  A side to
move, white or black. -/
inductive Colour where
  | white
  | black
deriving DecidableEq, Repr

/-- Rust's `!side` (the `Not` impl on `Colour`). -/
def Colour.not : Colour → Colour
  | .white => .black
  | .black => .white

/-- The `side as usize` discriminant (used to index `corrhist`). -/
def Colour.toNat : Colour → Nat
  | .white => 0
  | .black => 1

/-- Squares are integers in `[0, 64)`: `rank*8 + file`. -/
abbrev Square := Nat

/-- Modelled from the spec: `piece.rs` is missing from `src/`.  Piece types
in declaration order `Pawn < Knight < Bishop < Rook < Queen < King`; the
derived Rust `Ord` is the discriminant order. -/
inductive Piece where
  | pawn
  | knight
  | bishop
  | rook
  | queen
  | king
deriving DecidableEq, Repr

/-- Discriminant of a piece (`piece as usize`). -/
def Piece.toNat : Piece → Nat
  | .pawn => 0
  | .knight => 1
  | .bishop => 2
  | .rook => 3
  | .queen => 4
  | .king => 5

/-- Rust `Piece` comparison (`<` from the derived `Ord`). -/
def Piece.lt (a b : Piece) : Bool := a.toNat < b.toNat

/-- Modelled from the spec: `chessmove.rs` is missing from `src/`.  The kind
of a move. -/
inductive MoveType where
  | normal
  | capture
  | castle
  | enPassant
  | promotion
  | capturePromotion
  | doublePush
deriving DecidableEq, Repr

/-- Modelled from the spec: `chessmove.rs` is missing from `src/`.  A move:
origin square, destination square, kind and optional promotion piece.  The
Rust fields are `from`/`dest`; `from` is reserved in Lean so the fields are
named `src`/`dst` here. -/
structure Move where
  src : Square
  dst : Square
  kind : MoveType
  prom : Option Piece
deriving DecidableEq, Repr

/-- `Move::is_capture`: capture, capture-promotion and en passant retake a
piece. -/
def Move.isCapture (m : Move) : Bool :=
  match m.kind with
  | .capture | .capturePromotion | .enPassant => true
  | _ => false

/-- Modelled from the spec: `square.rs` is missing from `src/`.  The eight
sliding directions and the eight knight leaps. -/
inductive Direction where
  | north
  | northEast
  | east
  | southEast
  | south
  | southWest
  | west
  | northWest
  | northNorthEast
  | eastNorthEast
  | eastSouthEast
  | southSouthEast
  | southSouthWest
  | westSouthWest
  | westNorthWest
  | northNorthWest
deriving DecidableEq, Repr

/-- Modelled from the spec: offset of a direction on the 16-wide padded
board (`Square16x8`); north is +16, east is +1. -/
def Direction.offset : Direction → Int
  | .north => 16
  | .northEast => 17
  | .east => 1
  | .southEast => -15
  | .south => -16
  | .southWest => -17
  | .west => -1
  | .northWest => 15
  | .northNorthEast => 33
  | .eastNorthEast => 18
  | .eastSouthEast => -14
  | .southSouthEast => -31
  | .southSouthWest => -33
  | .westSouthWest => -18
  | .westNorthWest => 14
  | .northNorthWest => 31

/-- Modelled from the spec: each direction has an `opposite()`. -/
def Direction.opposite : Direction → Direction
  | .north => .south
  | .northEast => .southWest
  | .east => .west
  | .southEast => .northWest
  | .south => .north
  | .southWest => .northEast
  | .west => .east
  | .northWest => .southEast
  | .northNorthEast => .southSouthWest
  | .eastNorthEast => .westSouthWest
  | .eastSouthEast => .westNorthWest
  | .southSouthEast => .northNorthWest
  | .southSouthWest => .northNorthEast
  | .westSouthWest => .eastNorthEast
  | .westNorthWest => .eastSouthEast
  | .northNorthWest => .southSouthEast

/-- Modelled from the spec: `valid_for_slider` — bishops slide diagonally,
rooks orthogonally, queens both; no other piece slides. -/
def Direction.validForSlider (d : Direction) (p : Piece) : Bool :=
  match p, d with
  | .bishop, .northEast | .bishop, .southEast | .bishop, .southWest | .bishop, .northWest => true
  | .rook, .north | .rook, .east | .rook, .south | .rook, .west => true
  | .queen, .north | .queen, .east | .queen, .south | .queen, .west => true
  | .queen, .northEast | .queen, .southEast | .queen, .southWest | .queen, .northWest => true
  | _, _ => false

/-- Modelled from the spec: file of a square (0 = A .. 7 = H). -/
def Square.file (s : Square) : Nat := s % 8

/-- Modelled from the spec: rank of a square (0 = rank 1 .. 7 = rank 8). -/
def Square.rank (s : Square) : Nat := s / 8

/-- Modelled from the spec: `square ^ 56` flips the board vertically. -/
def Square.flip (s : Square) : Nat := s ^^^ 56

/-- Modelled from the spec: `Square::from_rank_file`. -/
def Square.fromRankFile (rank file : Nat) : Square := 8 * rank + file

/-- Modelled from the spec: embed a square into the 16-wide padded grid. -/
def Square.to16x8 (s : Square) : Nat := 16 * (s / 8) + s % 8

/-- Modelled from the spec: read a square back out of the 16-wide grid. -/
def Square.of16x8 (x : Nat) : Square := 8 * (x / 16) + x % 16

/-- Modelled from the spec: a 16x8 coordinate is on the board iff masking
with `0x88` leaves nothing (file < 8, rank < 8). -/
def valid16x8 (x : Int) : Bool := 0 ≤ x && x < 128 && (x.toNat &&& 0x88) == 0

/-- Modelled from the spec: `travel(dir)` yields the next square along a
direction, or nothing when it runs off the board. -/
def Square.travel (s : Square) (d : Direction) : Option Square :=
  let x : Int := (Square.to16x8 s : Int) + d.offset
  if valid16x8 x then some (Square.of16x8 x.toNat) else none

/-- Modelled from the spec: `direction(a, b)` gives the sliding direction
from `a` to `b` when the two squares share a ray, and nothing otherwise
(knight offsets yield nothing). -/
def Square.direction (a b : Square) : Option Direction :=
  let df : Int := (Square.file b : Int) - (Square.file a : Int)
  let dr : Int := (Square.rank b : Int) - (Square.rank a : Int)
  if df == 0 && dr == 0 then none
  else if dr == 0 then (if df > 0 then some .east else some .west)
  else if df == 0 then (if dr > 0 then some .north else some .south)
  else if df == dr then (if df > 0 then some .northEast else some .southWest)
  else if df == -dr then (if df > 0 then some .southEast else some .northWest)
  else none

/-- Auxiliary walk for `ray_attacks` (a board ray has at most 7 squares). -/
def rayAux : Nat → Square → Direction → List Square
  | 0, _, _ => []
  | fuel + 1, s, d =>
    match s.travel d with
    | none => []
    | some t => t :: rayAux fuel t d

/-- Modelled from the spec: `ray_attacks(dir)` is the forward-only iterator
from a square along a direction, stopping at the board edge. -/
def Square.rayAttacks (s : Square) (d : Direction) : List Square := rayAux 7 s d

/-- Modelled from the spec: the squares a king attacks from `s`. -/
def Square.kingAttacks (s : Square) : List Square :=
  [Direction.north, .northEast, .east, .southEast, .south, .southWest, .west,
    .northWest].filterMap s.travel

/-- Modelled from the spec: `relative_north` — north for white, south for
black. -/
def Square.relativeNorth (s : Square) (c : Colour) : Option Square :=
  s.travel (match c with | .white => .north | .black => .south)

/-- Modelled from the spec: `relative_south` — south for white, north for
black. -/
def Square.relativeSouth (s : Square) (c : Colour) : Option Square :=
  s.travel (match c with | .white => .south | .black => .north)

/-- Modelled from the spec: `Rank::is_relative_eighth` (promotion rank). -/
def rankIsRelativeEighth (rank : Nat) (c : Colour) : Bool :=
  match c with | .white => rank == 7 | .black => rank == 0

/-- Modelled from the spec: `Rank::is_relative_fourth` (double-push rank). -/
def rankIsRelativeFourth (rank : Nat) (c : Colour) : Bool :=
  match c with | .white => rank == 3 | .black => rank == 4

/-!  ## Bitlist

Modelled from the spec: `bitlist.rs` is missing from `src/`.  A `Bitlist` is
a 32-bit set of piece indices: bits 0–15 are white pieces, bits 16–31 black
pieces; iteration yields indices lowest-first.  Here a `Bitlist` is a `Nat`
kept below `2^32`. -/

/-- A 32-bit set of piece indices. -/
abbrev Bitlist := Nat

namespace Bitlist

/-- `Bitlist::white()`: the lower 16 bits. -/
def whiteMask : Bitlist := 0xFFFF

/-- `Bitlist::black()`: the upper 16 bits. -/
def blackMask : Bitlist := 0xFFFF0000

/-- `Bitlist::mask_from_colour`. -/
def maskFromColour : Colour → Bitlist
  | .white => whiteMask
  | .black => blackMask

/-- 32-bit complement (`Not` on `Bitlist`). -/
def invert (b : Bitlist) : Bitlist := b ^^^ 0xFFFFFFFF

/-- `Bitlist::from_piece`: the singleton set of one piece index. -/
def fromPiece (i : Nat) : Bitlist := 1 <<< i

/-- Set membership. -/
def contains (b : Bitlist) (i : Nat) : Bool := b.testBit i

/-- `Bitlist::empty()`. -/
def empty (b : Bitlist) : Bool := b == 0

/-- Ascending list of the members (iteration order of the Rust bitlist). -/
def toList (b : Bitlist) : List Nat := (List.range 32).filter fun i => b.testBit i

/-- `count_ones()`. -/
def countOnes (b : Bitlist) : Nat := (toList b).length

/-- `peek()`: the lowest set bit, if any. -/
def peek (b : Bitlist) : Option Nat := (toList b).head?

end Bitlist

/-- Colour encoded in a piece index: indices 0–15 are white, 16–31 black. -/
def indexColour (i : Nat) : Colour := if i < 16 then .white else .black

/-- `PieceIndex::is_white()`. -/
def indexIsWhite (i : Nat) : Bool := i < 16

end Yukari

namespace Yukari

/-!  ## Piecemask, Piecelist, PieceIndexArray, BitlistArray

Modelled from the spec: `piecemask.rs`, `piecelist.rs` and `index.rs` are
missing from `src/`.  The three redundant views: which indices exist and
with what type, index -> square, and square -> index. -/

/-- For each piece type, the bitlist of indices currently holding it. -/
structure Piecemask where
  pawns : Bitlist
  knights : Bitlist
  bishops : Bitlist
  rooks : Bitlist
  queens : Bitlist
  kings : Bitlist
deriving DecidableEq, Repr

namespace Piecemask

/-- The empty piecemask. -/
def new : Piecemask := ⟨0, 0, 0, 0, 0, 0⟩

/-- All live indices. -/
def occupied (pm : Piecemask) : Bitlist :=
  pm.pawns ||| pm.knights ||| pm.bishops ||| pm.rooks ||| pm.queens ||| pm.kings

/-- The type held by an index, if the index is live. -/
def piece (pm : Piecemask) (i : Nat) : Option Piece :=
  if pm.pawns.testBit i then some .pawn
  else if pm.knights.testBit i then some .knight
  else if pm.bishops.testBit i then some .bishop
  else if pm.rooks.testBit i then some .rook
  else if pm.queens.testBit i then some .queen
  else if pm.kings.testBit i then some .king
  else none

/-- Set an index's bit in the mask of one piece type. -/
def setBit (pm : Piecemask) (p : Piece) (i : Nat) : Piecemask :=
  match p with
  | .pawn => { pm with pawns := pm.pawns ||| Bitlist.fromPiece i }
  | .knight => { pm with knights := pm.knights ||| Bitlist.fromPiece i }
  | .bishop => { pm with bishops := pm.bishops ||| Bitlist.fromPiece i }
  | .rook => { pm with rooks := pm.rooks ||| Bitlist.fromPiece i }
  | .queen => { pm with queens := pm.queens ||| Bitlist.fromPiece i }
  | .king => { pm with kings := pm.kings ||| Bitlist.fromPiece i }

/-- Modelled from the spec: adding a piece allocates the lowest free slot
within the colour's index range (a full range is a panic, hence `none`). -/
def addPiece (pm : Piecemask) (p : Piece) (c : Colour) : Option (Nat × Piecemask) :=
  match Bitlist.peek (pm.occupied.invert &&& Bitlist.maskFromColour c) with
  | none => none
  | some i => some (i, pm.setBit p i)

/-- Modelled from the spec: removal clears the index. -/
def removePiece (pm : Piecemask) (i : Nat) : Piecemask :=
  let nb := Bitlist.invert (Bitlist.fromPiece i)
  ⟨pm.pawns &&& nb, pm.knights &&& nb, pm.bishops &&& nb, pm.rooks &&& nb,
    pm.queens &&& nb, pm.kings &&& nb⟩

end Piecemask

/-- Array of 32 squares, indexed by piece index (dead slots keep a stale
square; the Rust array is read only at live indices). -/
abbrev Piecelist := Array Nat

namespace Piecelist

def new : Piecelist := Array.mkArray 32 0

def get (pl : Piecelist) (i : Nat) : Nat := pl.getD i 0

def addPiece (pl : Piecelist) (i : Nat) (s : Nat) : Piecelist := pl.setD i s

def removePiece (pl : Piecelist) (i : Nat) (_s : Nat) : Piecelist := pl.setD i 0

def movePiece (pl : Piecelist) (i : Nat) (toSq : Nat) : Piecelist := pl.setD i toSq

end Piecelist

/-- Array of 64 optional piece indices, indexed by square. -/
abbrev PieceIndexArray := Array (Option Nat)

namespace PieceIndexArray

def new : PieceIndexArray := Array.mkArray 64 none

def get (ia : PieceIndexArray) (s : Nat) : Option Nat := ia.getD s none

def addPiece (ia : PieceIndexArray) (i : Nat) (s : Nat) : PieceIndexArray :=
  ia.setD s (some i)

def removePiece (ia : PieceIndexArray) (_i : Nat) (s : Nat) : PieceIndexArray :=
  ia.setD s none

def movePiece (ia : PieceIndexArray) (i : Nat) (fromSq toSq : Nat) : PieceIndexArray :=
  (ia.setD fromSq none).setD toSq (some i)

end PieceIndexArray

/-- The attack table: for each square, the bitlist of indices attacking it. -/
abbrev BitlistArray := Array Bitlist

namespace BitlistArray

def new : BitlistArray := Array.mkArray 64 0

def get (ba : BitlistArray) (s : Nat) : Bitlist := ba.getD s 0

def addPiece (ba : BitlistArray) (s : Nat) (i : Nat) : BitlistArray :=
  ba.setD s (ba.get s ||| Bitlist.fromPiece i)

def removePiece (ba : BitlistArray) (s : Nat) (i : Nat) : BitlistArray :=
  ba.setD s (ba.get s &&& Bitlist.invert (Bitlist.fromPiece i))

def clear (ba : BitlistArray) (s : Nat) : BitlistArray := ba.setD s 0

end BitlistArray

/-!  ## Zobrist keys

Modelled from the spec: `zobrist.rs` is missing from `src/`.  The hash is
the XOR of 64-bit keys: one per (colour, piece, square), one for the side to
move, one per castling right, one per en-passant file.  The concrete key
values are arbitrary here (the real constants are in the missing file); the
claims about hashing depend only on the XOR structure, and the concrete
facts proved below are facts about these model keys. -/

namespace Zobrist

/-- A cheap 64-bit mixer standing in for the missing random key table. -/
def mix (n : Nat) : Nat :=
  let z := (n * 0x9E3779B97F4A7C15 + 0xD1B54A32D192ED03) % 2 ^ 64
  z ^^^ (z >>> 29)

/-- Key of a (colour, piece, square) triple. -/
def pieceKey (c : Colour) (p : Piece) (s : Nat) : Nat :=
  mix (12 * s + 2 * p.toNat + c.toNat)

/-- Key of the side to move. -/
def sideKey : Nat := mix 768

/-- Key of castling right `k` (0 = wK, 1 = wQ, 2 = bK, 3 = bQ). -/
def castleKey (k : Nat) : Nat := mix (769 + k)

/-- Key of an en-passant file. -/
def epKey (file : Nat) : Nat := mix (773 + file)

/-- `Zobrist::add_piece` (XOR is its own inverse, so also `remove_piece`). -/
def addPiece (c : Colour) (p : Piece) (s : Nat) (h : Nat) : Nat :=
  h ^^^ pieceKey c p s

/-- `Zobrist::move_piece`. -/
def movePiece (c : Colour) (p : Piece) (fromSq toSq : Nat) (h : Nat) : Nat :=
  h ^^^ pieceKey c p fromSq ^^^ pieceKey c p toSq

/-- `Zobrist::set_ep`: XOR out the old en-passant file key, XOR in the new. -/
def setEp (old new : Option Nat) (h : Nat) : Nat :=
  let h := match old with | some s => h ^^^ epKey (Square.file s) | none => h
  match new with | some s => h ^^^ epKey (Square.file s) | none => h

/-- `Zobrist::add_castling` / `remove_castling`. -/
def castling (k : Nat) (h : Nat) : Nat := h ^^^ castleKey k

/-- `Zobrist::toggle_side`. -/
def toggleSide (h : Nat) : Nat := h ^^^ sideKey

end Zobrist

/-!  ## BoardData (`data.rs`)

The incremental kernel: the three piece views, the attack table and the
Zobrist hash.  The `eval` field of the Rust struct (NNUE accumulators) feeds
nothing back into these operations; it is embedded separately below for the
accumulator claims. -/

structure BoardData where
  bitlist : BitlistArray
  piecelist : Piecelist
  index : PieceIndexArray
  piecemask : Piecemask
  hash : Nat
deriving DecidableEq, Repr

namespace BoardData

def new : BoardData :=
  ⟨BitlistArray.new, Piecelist.new, PieceIndexArray.new, Piecemask.new, 0⟩

/-- `piece_index`: the piece index on a square, if any. -/
def pieceIndex (d : BoardData) (s : Nat) : Option Nat := d.index.get s

/-- `attacks_to`: the attackers of a square of one colour. -/
def attacksTo (d : BoardData) (s : Nat) (c : Colour) : Bitlist :=
  d.bitlist.get s &&& Bitlist.maskFromColour c

/-- `square_of_piece`. -/
def squareOfPiece (d : BoardData) (i : Nat) : Square := d.piecelist.get i

/-- `has_piece`. -/
def hasPiece (d : BoardData) (s : Nat) : Bool := (d.index.get s).isSome

/-- `king_square`: square of the king of a colour.  The Rust code uses an
unchecked `peek_nonzero`; a kingless colour is undefined behaviour there and
`none` here. -/
def kingSquare (d : BoardData) (c : Colour) : Option Square :=
  (Bitlist.peek (d.piecemask.kings &&& Bitlist.maskFromColour c)).map d.squareOfPiece

/-- `piece_from_bit`: type of a live index (the Rust code panics on a dead
index; here that is `none`). -/
def pieceFromBit (d : BoardData) (i : Nat) : Option Piece := d.piecemask.piece i

/-- `piece_from_square`. -/
def pieceFromSquare (d : BoardData) (s : Nat) : Option Piece :=
  (d.index.get s).bind d.piecemask.piece

/-- `colour_from_square`. -/
def colourFromSquare (d : BoardData) (s : Nat) : Option Colour :=
  (d.index.get s).map indexColour

/-- `hash_pawns`: pawn-only Zobrist hash, built from scratch. -/
def hashPawns (d : BoardData) : Nat :=
  (Bitlist.toList d.piecemask.pawns).foldl
    (fun h i => Zobrist.addPiece (indexColour i) .pawn (d.squareOfPiece i) h) 0

/-- One step of `update_attacks`' `update` closure. -/
def updateBit (ba : BitlistArray) (add : Bool) (dest : Nat) (i : Nat) : BitlistArray :=
  if add then ba.addPiece dest i else ba.removePiece dest i

/-- The `slide` closure of `update_attacks`: walk from `cur`'s successor
marking squares, stopping after the first occupied square (the Rust loop
also caps at 7 iterations, the length of the longest ray). -/
def slideAux (index : PieceIndexArray) (i : Nat) (add : Bool) (d : Direction) :
    Nat → Option Square → BitlistArray → BitlistArray
  | 0, _, ba => ba
  | _ + 1, none, ba => ba
  | fuel + 1, some s, ba =>
    let ba := updateBit ba add s i
    slideAux index i add d fuel (if (index.get s).isNone then s.travel d else none) ba

/-- `slide` including the `skip_dir` filter of `move_piece`. -/
def slide (index : PieceIndexArray) (i : Nat) (add : Bool) (skipDir : Option Direction)
    (sq : Square) (dir : Direction) (ba : BitlistArray) : BitlistArray :=
  match skipDir with
  | some sd => if sd = dir || sd = dir.opposite then ba
      else slideAux index i add dir 7 (sq.travel dir) ba
  | none => slideAux index i add dir 7 (sq.travel dir) ba

/-- The `leap` closure of `update_attacks`. -/
def leap (i : Nat) (add : Bool) (sq : Square) (dir : Direction) (ba : BitlistArray) :
    BitlistArray :=
  match sq.travel dir with
  | some dest => updateBit ba add dest i
  | none => ba

/-- `update_attacks`: add or remove the attacks of one piece. -/
def updateAttacks (d : BoardData) (sq : Square) (i : Nat) (p : Piece) (add : Bool)
    (skipDir : Option Direction) : BoardData :=
  let ba := d.bitlist
  let ba :=
    match p with
    | .pawn =>
      if indexIsWhite i then
        leap i add sq .northEast (leap i add sq .northWest ba)
      else
        leap i add sq .southEast (leap i add sq .southWest ba)
    | .knight =>
      [Direction.northNorthEast, .eastNorthEast, .eastSouthEast, .southSouthEast,
        .southSouthWest, .westSouthWest, .westNorthWest, .northNorthWest].foldl
        (fun ba dir => leap i add sq dir ba) ba
    | .king =>
      [Direction.north, .northEast, .east, .southEast, .south, .southWest, .west,
        .northWest].foldl (fun ba dir => leap i add sq dir ba) ba
    | .bishop =>
      [Direction.northEast, .southEast, .southWest, .northWest].foldl
        (fun ba dir => slide d.index i add skipDir sq dir ba) ba
    | .rook =>
      [Direction.north, .east, .south, .west].foldl
        (fun ba dir => slide d.index i add skipDir sq dir ba) ba
    | .queen =>
      [Direction.north, .east, .south, .west, .northEast, .southEast, .southWest,
        .northWest].foldl (fun ba dir => slide d.index i add skipDir sq dir ba) ba
  { d with bitlist := ba }

/-- The inner walk of `update_sliders`: extend or retract one slider's ray
beyond `square`, stopping at (and including) the first occupied square. -/
def raySet (index : PieceIndexArray) (i : Nat) (add : Bool) :
    List Nat → BitlistArray → BitlistArray
  | [], ba => ba
  | dest :: rest, ba =>
    let ba := updateBit ba add dest i
    if (index.get dest).isSome then ba else raySet index i add rest ba

/-- `update_sliders`: recompute the rays of every slider attacking `sq`
after `sq` was emptied (`add`) or filled (`not add`). -/
def updateSliders (d : BoardData) (sq : Square) (add : Bool) : BoardData :=
  let sliders := d.bitlist.get sq &&&
    (d.piecemask.bishops ||| d.piecemask.rooks ||| d.piecemask.queens)
  let ba := (Bitlist.toList sliders).foldl
    (fun ba i =>
      match Square.direction (d.squareOfPiece i) sq with
      | none => ba
      | some dir => raySet d.index i add (sq.rayAttacks dir) ba)
    d.bitlist
  { d with bitlist := ba }

/-- `BoardData::add_piece` (without the NNUE update, embedded separately).
`none` when index allocation fails, which is a panic in Rust. -/
def addPiece (d : BoardData) (p : Piece) (c : Colour) (s : Nat) (update : Bool) :
    Option BoardData := do
  let (i, pm) ← d.piecemask.addPiece p c
  let d := { d with
    piecemask := pm
    piecelist := d.piecelist.addPiece i s
    index := d.index.addPiece i s
    hash := Zobrist.addPiece c p s d.hash }
  let d := if update then
      let d := d.updateAttacks s i p true none
      d.updateSliders s false
    else d
  return d

/-- `BoardData::remove_piece`.  `none` when the index is dead (a panic in
Rust). -/
def removePiece (d : BoardData) (i : Nat) (update : Bool) : Option BoardData := do
  let s := d.squareOfPiece i
  let p ← d.pieceFromBit i
  let d := { d with
    piecemask := d.piecemask.removePiece i
    piecelist := d.piecelist.removePiece i s
    index := d.index.removePiece i s
    hash := Zobrist.addPiece (indexColour i) p s d.hash }
  let d := if update then
      let d := d.updateAttacks s i p false none
      d.updateSliders s true
    else d
  return d

/-- `BoardData::move_piece` (without the NNUE update, embedded separately).
`none` when the origin square is empty or its index dead (panics in Rust). -/
def movePiece (d : BoardData) (fromSq toSq : Nat) : Option BoardData := do
  let i ← d.index.get fromSq
  let p ← d.pieceFromBit i
  let slideDir := (Square.direction fromSq toSq).filter fun _ =>
    match p with | .bishop | .rook | .queen => true | _ => false
  let d := d.updateAttacks fromSq i p false slideDir
  let d := d.updateSliders fromSq true
  let d := if slideDir.isSome then { d with bitlist := d.bitlist.addPiece fromSq i } else d
  let d := { d with
    piecelist := d.piecelist.movePiece i toSq
    index := d.index.movePiece i fromSq toSq
    hash := Zobrist.movePiece (indexColour i) p fromSq toSq d.hash }
  let d := if slideDir.isSome then { d with bitlist := d.bitlist.removePiece toSq i } else d
  let d := d.updateAttacks toSq i p true slideDir
  let d := d.updateSliders toSq false
  return d

/-- `BoardData::rebuild_attacks`: clear the table, then add every piece's
attacks (a square whose index is dead is skipped; the Rust original would
panic there). -/
def rebuildAttacks (d : BoardData) : BoardData :=
  let d := (List.range 64).foldl (fun d s => { d with bitlist := d.bitlist.clear s }) d
  (List.range 64).foldl
    (fun d s =>
      match d.index.get s with
      | some i =>
        match d.pieceFromBit i with
        | some p => d.updateAttacks s i p true none
        | none => d
      | none => d)
    d

/-- `BoardData::set_ep` (hash bookkeeping only). -/
def setEp (d : BoardData) (old new : Option Nat) : BoardData :=
  { d with hash := Zobrist.setEp old new d.hash }

/-- `BoardData::add_castling`. -/
def addCastling (d : BoardData) (k : Nat) : BoardData :=
  { d with hash := Zobrist.castling k d.hash }

/-- `BoardData::remove_castling`. -/
def removeCastling (d : BoardData) (k : Nat) : BoardData :=
  { d with hash := Zobrist.castling k d.hash }

/-- `BoardData::toggle_side`. -/
def toggleSide (d : BoardData) : BoardData :=
  { d with hash := Zobrist.toggleSide d.hash }

end BoardData

end Yukari

namespace Yukari

/-!  ## Board (`mod.rs`) -/

/-- A chess position: board data, side to move, castling rights quadruple
(wK, wQ, bK, bQ) and optional en-passant square. -/
structure Board where
  data : BoardData
  side : Colour
  castleWK : Bool
  castleWQ : Bool
  castleBK : Bool
  castleBQ : Bool
  ep : Option Square
deriving DecidableEq, Repr

namespace Board

/-- `Board::new`. -/
def new : Board := ⟨BoardData.new, .white, false, false, false, false, none⟩

/-- `Board::illegal`: missing king, or the side that just moved left its
king in check. -/
def illegal (b : Board) : Bool :=
  if b.data.piecemask.kings &&& Bitlist.whiteMask == 0 then true
  else if b.data.piecemask.kings &&& Bitlist.blackMask == 0 then true
  else
    match b.data.kingSquare b.side.not with
    | some k => !(b.data.attacksTo k b.side == 0)
    | none => true

/-- `Board::in_check` (a kingless side, undefined behaviour in Rust, reads
as not in check here). -/
def inCheck (b : Board) : Bool :=
  match b.data.kingSquare b.side with
  | some k => !(b.data.attacksTo k b.side.not == 0)
  | none => false

/-- `Board::hash`. -/
def hash (b : Board) : Nat := b.data.hash

/-- `Board::hash_pawns`. -/
def hashPawns (b : Board) : Nat := b.data.hashPawns

/-- `Board::piece_from_square`. -/
def pieceFromSquare (b : Board) (s : Square) : Option Piece := b.data.pieceFromSquare s

/-- `Board::square_of_piece`. -/
def squareOfPiece (b : Board) (i : Nat) : Square := b.data.squareOfPiece i

/-- The private `Board::set_ep`: updates the hash with the old and new
en-passant squares, then stores the new one. -/
def setEpB (b : Board) (ep : Option Square) : Board :=
  { b with data := b.data.setEp b.ep ep, ep := ep }

/-- `Board::make_null`: flip the side to move and clear en passant. -/
def makeNull (b : Board) : Board :=
  let b := { b with side := b.side.not }
  let b := b.setEpB none
  { b with data := b.data.toggleSide }

/-- `Board::make`.  Returns `none` where the Rust code would panic (capture
of an empty square, off-board castling geometry, dead indices). -/
def make (b : Board) (m : Move) : Option Board := do
  let bd ← match m.kind with
    | .promotion | .normal | .doublePush => some b.data
    | .capture | .capturePromotion => do
        let i ← b.data.pieceIndex m.dst
        b.data.removePiece i true
    | .castle => do
        let (rookFrom, rookTo) ←
          if m.dst > m.src then do
            let e ← m.dst.travel .east
            let w ← m.dst.travel .west
            pure (e, w)
          else do
            let w1 ← m.dst.travel .west
            let w2 ← w1.travel .west
            let e ← m.dst.travel .east
            pure (w2, e)
        b.data.movePiece rookFrom rookTo
    | .enPassant => do
        let ep ← b.ep
        let target ← ep.relativeSouth b.side
        let i ← b.data.pieceIndex target
        b.data.removePiece i true
  let bd ← bd.movePiece m.src m.dst
  let bd ←
    if m.kind = .promotion ∨ m.kind = .capturePromotion then do
      let i ← bd.pieceIndex m.dst
      let bd ← bd.removePiece i true
      let p ← m.prom
      bd.addPiece p b.side m.dst true
    else some bd
  let b := { b with data := bd }
  let b :=
    if m.kind = .doublePush then b.setEpB (m.src.relativeNorth b.side)
    else b.setEpB none
  let e1 : Square := 4
  let e8 : Square := 60
  let a1 : Square := 0
  let h1 : Square := 7
  let a8 : Square := 56
  let h8 : Square := 63
  let b :=
    if m.src = e1 then
      let b := if b.castleWK then
          { b with castleWK := false, data := b.data.removeCastling 0 } else b
      if b.castleWQ then
          { b with castleWQ := false, data := b.data.removeCastling 1 } else b
    else b
  let b :=
    if m.src = e8 then
      let b := if b.castleBK then
          { b with castleBK := false, data := b.data.removeCastling 2 } else b
      if b.castleBQ then
          { b with castleBQ := false, data := b.data.removeCastling 3 } else b
    else b
  let b :=
    if (m.src == h1 || m.dst == h1) && b.castleWK then
      { b with castleWK := false, data := b.data.removeCastling 0 } else b
  let b :=
    if (m.src == a1 || m.dst == a1) && b.castleWQ then
      { b with castleWQ := false, data := b.data.removeCastling 1 } else b
  let b :=
    if (m.src == h8 || m.dst == h8) && b.castleBK then
      { b with castleBK := false, data := b.data.removeCastling 2 } else b
  let b :=
    if (m.src == a8 || m.dst == a8) && b.castleBQ then
      { b with castleBQ := false, data := b.data.removeCastling 3 } else b
  return { b with side := b.side.not, data := b.data.toggleSide }

end Board

/-!  ## FEN parsing (`from_fen_bytes`)

The Rust parser indexes `fen[idx]` without bounds checks and unwraps
`try_from` conversions; its doc comment says "Panics when invalid FEN is
input".  The embedding makes every such panic explicit. -/

/-- Result of a computation that can panic. -/
inductive Panics (α : Type) where
  | ok (a : α)
  | panicked
deriving DecidableEq, Repr

/-- Sequence two stages of a parser that can panic (`panicked`) or fail
(`ok none`, the Rust `return None`). -/
def Panics.andThen : Panics (Option α) → (α → Panics (Option β)) → Panics (Option β)
  | .panicked, _ => .panicked
  | .ok none, _ => .ok none
  | .ok (some a), f => f a

/-- `fen[idx]`: a read past the end of the input is a panic. -/
def pRead (fen : List Nat) (idx : Nat) : Panics Nat :=
  match fen.get? idx with
  | some c => .ok c
  | none => .panicked

/-- Piece letter lookup (`c.to_ascii_lowercase()` match). -/
def pieceOfChar (c : Nat) : Option Piece :=
  if c = 107 then some .king
  else if c = 113 then some .queen
  else if c = 114 then some .rook
  else if c = 98 then some .bishop
  else if c = 110 then some .knight
  else if c = 112 then some .pawn
  else none

/-- `to_ascii_lowercase`. -/
def toLowerByte (c : Nat) : Nat := if 65 ≤ c ∧ c ≤ 90 then c + 32 else c

/-- The `while file <= 7` loop of one rank of the piece-placement field.
The fuel only bounds the recursion; `file` grows by at least one each
iteration, so fuel 9 can never run out. -/
def parseRankAux (fen : List Nat) (rank : Nat) :
    Nat → Nat → Nat → Nat → BoardData → Panics (Option (BoardData × Nat × Nat))
  | 0, _, _, _, _ => .panicked
  | fuel + 1, file, idx, c, d =>
    if file ≤ 7 then
      let step : Panics (Option (BoardData × Nat)) :=
        if 49 ≤ c ∧ c ≤ 56 then .ok (some (d, file + (c - 48)))
        else
          match pieceOfChar (toLowerByte c) with
          | none => .ok none
          | some p =>
            let colour := if 65 ≤ c ∧ c ≤ 90 then Colour.white else Colour.black
            match d.addPiece p colour (Square.fromRankFile rank file) false with
            | some d => .ok (some (d, file + 1))
            | none => .panicked
      step.andThen fun (d, file) =>
        match pRead fen (idx + 1) with
        | .panicked => .panicked
        | .ok c => parseRankAux fen rank fuel file (idx + 1) c d
    else .ok (some (d, idx, c))

/-- The `for rank in (0..=7).rev()` loop over the eight ranks. -/
def parseRanks (fen : List Nat) :
    List Nat → Nat → Nat → BoardData → Panics (Option (BoardData × Nat × Nat))
  | [], idx, c, d => .ok (some (d, idx, c))
  | rank :: rest, idx, c, d =>
    (parseRankAux fen rank 9 0 idx c d).andThen fun (d, idx, c) =>
      if rank > 0 then
        match pRead fen (idx + 1) with
        | .panicked => .panicked
        | .ok c => parseRanks fen rest (idx + 1) c d
      else parseRanks fen rest idx c d

/-- The castling-rights field.  Returns the rights quadruple, the updated
board data and the index just after the field. -/
def parseCastling (fen : List Nat) (idx : Nat) (c : Nat) (d : BoardData) :
    Panics (Option ((Bool × Bool × Bool × Bool) × BoardData × Nat)) :=
  if c = 45 then .ok (some ((false, false, false, false), d, idx + 1))
  else
    let step := fun (cond : Bool) (k : Nat) (flag : Bool) (d : BoardData) (idx : Nat)
        (c : Nat) (readNext : Bool) =>
      if cond then
        let d := d.addCastling k
        if readNext then
          match pRead fen (idx + 1) with
          | .panicked => (Panics.panicked : Panics (Option (Bool × BoardData × Nat × Nat)))
          | .ok c' => .ok (some (true, d, idx + 1, c'))
        else .ok (some (true, d, idx + 1, c))
      else .ok (some (flag, { d with hash := d.hash }, idx, c))
  -- wK
    (step (c = 75) 0 false d idx c true).andThen fun (wk, d, idx, c) =>
    (step (c = 81) 1 false d idx c true).andThen fun (wq, d, idx, c) =>
    (step (c = 107) 2 false d idx c true).andThen fun (bk, d, idx, c) =>
    (step (c = 113) 3 false d idx c false).andThen fun (bq, d, idx, _c) =>
    .ok (some ((wk, wq, bk, bq), d, idx))

/-- `Board::from_fen_bytes`, with explicit panics.  The side-to-move and
en-passant fields are stored directly into the board without touching the
Zobrist hash, exactly as the source does. -/
def fromFenBytes (fen : List Nat) : Panics (Option Board) :=
  match pRead fen 0 with
  | .panicked => .panicked
  | .ok c0 =>
    (parseRanks fen [7, 6, 5, 4, 3, 2, 1, 0] 0 c0 BoardData.new).andThen
      fun (d, idx, _c) =>
    match pRead fen (idx + 1) with
    | .panicked => .panicked
    | .ok c =>
      (match c with
        | 119 => Panics.ok (some Colour.white)
        | 98 => Panics.ok (some Colour.black)
        | _ => Panics.ok none).andThen fun side =>
      match pRead fen (idx + 3) with
      | .panicked => .panicked
      | .ok c =>
        (parseCastling fen (idx + 3) c d).andThen fun (castles, d, idx) =>
        match pRead fen (idx + 1) with
        | .panicked => .panicked
        | .ok c =>
          (if c = 45 then Panics.ok (some (none, d))
           else
             if 97 ≤ c ∧ c ≤ 104 then
               let file := c - 97
               match pRead fen (idx + 2) with
               | .panicked => .panicked
               | .ok c =>
                 if 49 ≤ c ∧ c ≤ 56 then
                   Panics.ok (some (some (Square.fromRankFile (c - 49) file), d))
                 else .panicked
             else .panicked).andThen fun (ep, d) =>
          let d := d.rebuildAttacks
          let b : Board := ⟨d, side, castles.1, castles.2.1, castles.2.2.1,
            castles.2.2.2, ep⟩
          if b.illegal then .ok none else .ok (some b)

/-- `Board::from_fen`: wraps the byte parser; building the `CString` panics
on interior NUL bytes.  ASCII strings map one character to one byte. -/
def fromFen (s : String) : Panics (Option Board) :=
  let bytes := s.data.map Char.toNat
  if bytes.contains 0 then .panicked else fromFenBytes bytes

/-- The FEN of the standard starting position (`Board::startpos`). -/
def startposFen : String := "rnbqkbnr/pppppppp/8/8/8/8/PPPPPPPP/RNBQKBNR w KQkq - 0 1"

end Yukari

namespace Yukari

/-!  ## Static exchange evaluation (`static_exchange_evaluation`) -/

/-- The `PIECE_VALUES` table with `piece_value(None) = 0`. -/
def pieceValue : Option Piece → Int
  | none => 0
  | some .pawn => 1
  | some .knight => 3
  | some .bishop => 3
  | some .rook => 5
  | some .queen => 9
  | some .king => 100

/-- Candidate scan of the `add_xrays` closure: re-include the first slider
behind the moved piece whose ray matches the capture square. -/
def addXraysScan (b : Board) (direction : Direction) (dest : Square) :
    List Nat → Bitlist → Bitlist → (Bitlist × Bitlist)
  | [], our, their => (our, their)
  | cand :: rest, our, their =>
    let candSquare := b.squareOfPiece cand
    match b.data.pieceFromBit cand with
    | none => addXraysScan b direction dest rest our their
    | some candType =>
      match Square.direction candSquare dest with
      | none => addXraysScan b direction dest rest our their
      | some candDir =>
        if !candDir.validForSlider candType then
          addXraysScan b direction dest rest our their
        else if candDir ≠ direction then
          addXraysScan b direction dest rest our their
        else if indexColour cand = b.side then
          (our ||| Bitlist.fromPiece cand, their)
        else
          (our, their ||| Bitlist.fromPiece cand)

/-- The `add_xrays` closure of `static_exchange_evaluation`. -/
def addXrays (b : Board) (dest : Square) (moverSquare : Square)
    (our their moved : Bitlist) : Bitlist × Bitlist :=
  let moverBitlist := (b.data.attacksTo moverSquare .white |||
    b.data.attacksTo moverSquare .black) &&&
    (b.data.piecemask.bishops ||| b.data.piecemask.rooks ||| b.data.piecemask.queens) &&&
    moved.invert
  match Square.direction moverSquare dest with
  | none => (our, their)
  | some direction => addXraysScan b direction dest (Bitlist.toList moverBitlist) our their

/-- The `next_piece` closure: pop the cheapest not-yet-moved attacker from
`bitlist`, remove it from both attack sets, mark it moved, and re-include
any x-ray it uncovered. -/
def nextPiece (b : Board) (dest : Square) (bitlist our their moved : Bitlist) :
    Option Piece × Bitlist × Bitlist × Bitlist :=
  let bl := bitlist &&& moved.invert
  match Bitlist.peek (bl &&& b.data.piecemask.pawns) with
  | some i =>
    let np := Bitlist.invert (Bitlist.fromPiece i)
    let moved := moved ||| Bitlist.fromPiece i
    let (our, their) := addXrays b dest (b.squareOfPiece i) (our &&& np) (their &&& np) moved
    (some .pawn, our, their, moved)
  | none =>
  match Bitlist.peek (bl &&& b.data.piecemask.knights) with
  | some i =>
    let np := Bitlist.invert (Bitlist.fromPiece i)
    (some .knight, our &&& np, their &&& np, moved ||| Bitlist.fromPiece i)
  | none =>
  match Bitlist.peek (bl &&& b.data.piecemask.bishops) with
  | some i =>
    let np := Bitlist.invert (Bitlist.fromPiece i)
    let moved := moved ||| Bitlist.fromPiece i
    let (our, their) := addXrays b dest (b.squareOfPiece i) (our &&& np) (their &&& np) moved
    (some .bishop, our, their, moved)
  | none =>
  match Bitlist.peek (bl &&& b.data.piecemask.rooks) with
  | some i =>
    let np := Bitlist.invert (Bitlist.fromPiece i)
    let moved := moved ||| Bitlist.fromPiece i
    let (our, their) := addXrays b dest (b.squareOfPiece i) (our &&& np) (their &&& np) moved
    (some .rook, our, their, moved)
  | none =>
  match Bitlist.peek (bl &&& b.data.piecemask.queens) with
  | some i =>
    let np := Bitlist.invert (Bitlist.fromPiece i)
    let moved := moved ||| Bitlist.fromPiece i
    let (our, their) := addXrays b dest (b.squareOfPiece i) (our &&& np) (their &&& np) moved
    (some .queen, our, their, moved)
  | none =>
  match Bitlist.peek (bl &&& b.data.piecemask.kings) with
  | some i =>
    let np := Bitlist.invert (Bitlist.fromPiece i)
    (some .king, our &&& np, their &&& np, moved ||| Bitlist.fromPiece i)
  | none => (none, our, their, moved)

/-- The swap-off loop of `static_exchange_evaluation`.  Each iteration marks
at least one new piece as moved, so 40 units of fuel can never run out; the
fuel-exhaustion value `beta` is unreachable. -/
def seeLoop (b : Board) (dest : Square) :
    Nat → Int → Int → Int → Option Piece → Bitlist → Bitlist → Bitlist → Int
  | 0, _, _, beta, _, _, _, _ => beta
  | fuel + 1, score, alpha, beta, attacker, our, their, moved =>
    let victim := attacker
    match nextPiece b dest their our their moved with
    | (none, _, _, _) => beta
    | (some ap, our, their, moved) =>
      let score := score - pieceValue victim
      if score ≥ beta then beta
      else
        let alpha := max alpha score
        let victim := some ap
        match nextPiece b dest our our their moved with
        | (none, _, _, _) => alpha
        | (some ap2, our, their, moved) =>
          let score := score + pieceValue victim
          if score ≤ alpha then alpha
          else seeLoop b dest fuel score alpha (min beta score) (some ap2) our their moved

/-- `Board::static_exchange_evaluation`.  `none` when the origin square is
empty (the Rust code unwraps `piece_index(m.from)`). -/
def see (b : Board) (m : Move) : Option Int := do
  let moverIndex ← b.data.pieceIndex m.src
  let our := b.data.attacksTo m.dst b.side &&& Bitlist.invert (Bitlist.fromPiece moverIndex)
  let their := b.data.attacksTo m.dst b.side.not
  let moved := Bitlist.fromPiece moverIndex
  let (our, their) := addXrays b m.dst m.src our their moved
  let victim := b.pieceFromSquare m.dst
  let attacker := b.pieceFromSquare m.src
  let score : Int := if m.kind = .enPassant then 1 else pieceValue victim
  let (score, attacker) :=
    match m.prom with
    | some p => (score + pieceValue (some p) - pieceValue (some Piece.pawn), some p)
    | none => (score, attacker)
  return seeLoop b m.dst 40 score (-1000) score attacker our their moved

end Yukari

namespace Yukari

/-!  ## Move generation (`mod.rs`)

Pin discovery lives in the missing `pins.rs`; it is modelled from the spec:
a friendly piece is pinned when it is the single piece between its king and
an enemy slider whose movement matches the shared ray, and a separate set
records pawns whose en-passant capture would clear two pawns from the
king's rank in front of an enemy rook or queen. -/

/-- Pin information: per piece index the pin-ray direction (or none), and
the set of pawns pinned against en passant. -/
structure PinInfo where
  pins : Array (Option Direction)
  epPinned : Bitlist

/-- `pieces_of_colour`. -/
def BoardData.piecesOfColour (d : BoardData) (c : Colour) : Bitlist :=
  d.piecemask.occupied &&& Bitlist.maskFromColour c

/-- First occupied square along a ray. -/
def firstOccupied (d : BoardData) (ray : List Square) : Option Square :=
  ray.find? fun s => (d.index.get s).isSome

/-- Modelled from the spec: `PinInfo::discover`. -/
def PinInfo.discover (b : Board) : PinInfo :=
  match b.data.kingSquare b.side with
  | none => ⟨Array.mkArray 32 none, 0⟩
  | some ks =>
    let pins := (List.range 32).foldl
      (fun arr i =>
        if !(b.data.piecemask.occupied.testBit i) then arr
        else if indexColour i ≠ b.side then arr
        else
          let s := b.squareOfPiece i
          if s = ks then arr
          else
            match Square.direction ks s with
            | none => arr
            | some dir =>
              if firstOccupied b.data (ks.rayAttacks dir) ≠ some s then arr
              else
                match firstOccupied b.data (s.rayAttacks dir) with
                | none => arr
                | some bs =>
                  match b.data.index.get bs with
                  | none => arr
                  | some j =>
                    if indexColour j ≠ b.side &&
                        (match b.data.pieceFromBit j with
                          | some pj => dir.validForSlider pj
                          | none => false) then
                      arr.setD i (some dir)
                    else arr)
      (Array.mkArray 32 none)
    let epPinned : Bitlist :=
      match b.ep with
      | none => 0
      | some e =>
        match e.relativeSouth b.side with
        | none => 0
        | some target =>
          (Bitlist.toList (b.data.attacksTo e b.side &&& b.data.piecemask.pawns)).foldl
            (fun acc c =>
              let cs := b.squareOfPiece c
              if Square.rank cs ≠ Square.rank ks then acc
              else
                match Square.direction ks cs with
                | none => acc
                | some dir =>
                  match (ks.rayAttacks dir).filter
                      (fun s => (b.data.index.get s).isSome) with
                  | x :: y :: z :: _ =>
                    if (x = cs ∧ y = target) ∨ (x = target ∧ y = cs) then
                      match b.data.index.get z with
                      | some j =>
                        if indexColour j ≠ b.side &&
                            (b.data.pieceFromBit j == some Piece.rook ||
                              b.data.pieceFromBit j == some Piece.queen) then
                          acc ||| Bitlist.fromPiece c
                        else acc
                      | none => acc
                    else acc
                  | _ => acc)
            0
    ⟨pins, epPinned⟩

/-- Append an optional move. -/
def pushOpt (v : List Move) : Option Move → List Move
  | some m => v ++ [m]
  | none => v

/-- `Board::try_push_move`: the pin filter.  A pinned piece may move only
along its pin ray; a pinned knight (no shared ray) may not move at all. -/
def tryPushMove (b : Board) (pin : PinInfo) (src dst : Square) (kind : MoveType)
    (prom : Option Piece) : Option Move :=
  let mv : Move := ⟨src, dst, kind, prom⟩
  match b.data.pieceIndex src with
  | none => some mv
  | some i =>
    match pin.pins.getD i none with
    | none => some mv
    | some dir =>
      match Square.direction src dst with
      | none => none
      | some md => if dir = md ∨ dir = md.opposite then some mv else none

/-- The four promotion pieces, in source order. -/
def promotionPieces : List Piece := [.queen, .knight, .rook, .bishop]

/-- `generate_pawn_enpassant`. -/
def generatePawnEnpassant (b : Board) (pin : PinInfo) (v : List Move) : List Move :=
  match b.ep with
  | none => v
  | some e =>
    (Bitlist.toList (b.data.attacksTo e b.side &&& b.data.piecemask.pawns &&&
        pin.epPinned.invert)).foldl
      (fun v capturer =>
        pushOpt v (tryPushMove b pin (b.squareOfPiece capturer) e .enPassant none))
      v

/-- `generate_pawn_quiet`: single and double pushes (with promotions). -/
def generatePawnQuiet (b : Board) (src : Square) (pin : PinInfo) (v : List Move) :
    List Move :=
  match src.relativeNorth b.side with
  | none => v
  | some dest =>
    if b.data.hasPiece dest then v
    else
      let v :=
        if rankIsRelativeEighth (Square.rank dest) b.side then
          promotionPieces.foldl
            (fun v p => pushOpt v (tryPushMove b pin src dest .promotion (some p))) v
        else pushOpt v (tryPushMove b pin src dest .normal none)
      match dest.relativeNorth b.side with
      | none => v
      | some dest2 =>
        if rankIsRelativeFourth (Square.rank dest2) b.side && !b.data.hasPiece dest2 then
          pushOpt v (tryPushMove b pin src dest2 .doublePush none)
        else v

/-- The `add_pawn_block` closure of `generate_single_check`. -/
def addPawnBlock (b : Board) (pin : PinInfo) (v : List Move) (src dest : Square)
    (kind : MoveType) : List Move :=
  match b.data.colourFromSquare src with
  | none => v
  | some colour =>
    if colour ≠ b.side then v
    else if !rankIsRelativeEighth (Square.rank dest) b.side then
      pushOpt v (tryPushMove b pin src dest kind none)
    else
      promotionPieces.foldl
        (fun v p => pushOpt v (tryPushMove b pin src dest .promotion (some p))) v

/-- The `add_pawn_blocks` closure of `generate_single_check`. -/
def addPawnBlocks (b : Board) (pin : PinInfo) (v : List Move) (dest : Square) :
    List Move :=
  match dest.relativeSouth b.side with
  | none => v
  | some src =>
    match b.data.pieceFromSquare src with
    | some .pawn => addPawnBlock b pin v src dest .normal
    | some _ => v
    | none =>
      if rankIsRelativeFourth (Square.rank dest) b.side then
        match src.relativeSouth b.side with
        | none => v
        | some src2 =>
          if b.data.pieceFromSquare src2 == some Piece.pawn then
            addPawnBlock b pin v src2 dest .doublePush
          else v
      else v

/-- `generate_single_check`: capture the checker, block (sliding checkers
only), capture en passant when the checker is the double-pushed pawn, or
step the king away (not along the checking ray's x-ray). -/
def generateSingleCheck (b : Board) : List Move :=
  match b.data.kingSquare b.side with
  | none => []
  | some ks =>
  match Bitlist.peek (b.data.attacksTo ks b.side.not) with
  | none => []
  | some attackerIndex =>
  match b.data.pieceFromBit attackerIndex with
  | none => []
  | some attackerPiece =>
  let attackerSquare := b.squareOfPiece attackerIndex
  let attackerDirection := Square.direction attackerSquare ks
  let pin := PinInfo.discover b
  let v := (Bitlist.toList (b.data.attacksTo attackerSquare b.side)).foldl
    (fun v capturer =>
      let src := b.squareOfPiece capturer
      if b.data.pieceFromBit capturer == some Piece.king &&
          !(b.data.attacksTo attackerSquare b.side.not == 0) then v
      else if b.data.pieceFromBit capturer != some Piece.pawn ||
          !rankIsRelativeEighth (Square.rank attackerSquare) b.side then
        pushOpt v (tryPushMove b pin src attackerSquare .capture none)
      else
        promotionPieces.foldl
          (fun v p =>
            pushOpt v (tryPushMove b pin src attackerSquare .capturePromotion (some p)))
          v)
    []
  let v :=
    match b.ep with
    | none => v
    | some e =>
      match e.relativeSouth b.side with
      | none => v
      | some epSouth =>
        if epSouth ≠ attackerSquare ∨ attackerPiece ≠ .pawn then v
        else
          (Bitlist.toList (b.data.attacksTo e b.side &&& b.data.piecemask.pawns &&&
              pin.epPinned.invert)).foldl
            (fun v capturer =>
              pushOpt v (tryPushMove b pin (b.squareOfPiece capturer) e .enPassant none))
            v
  let v :=
    match attackerPiece with
    | .bishop | .rook | .queen =>
      match Square.direction ks attackerSquare with
      | none => v
      | some dirK =>
        ((ks.rayAttacks dirK).takeWhile (· ≠ attackerSquare)).foldl
          (fun v dest =>
            let v := (Bitlist.toList (b.data.attacksTo dest b.side &&&
                (b.data.piecemask.pawns).invert &&& (b.data.piecemask.kings).invert)).foldl
              (fun v attacker =>
                pushOpt v (tryPushMove b pin (b.squareOfPiece attacker) dest .normal none))
              v
            addPawnBlocks b pin v dest)
          v
    | _ => v
  ks.kingAttacks.foldl
    (fun v square =>
      let kindOpt : Option MoveType :=
        if b.data.hasPiece square then
          if square == attackerSquare ||
              b.data.colourFromSquare square == some b.side then none
          else some .capture
        else some .normal
      match kindOpt with
      | none => v
      | some kind =>
        if !(b.data.attacksTo square b.side.not == 0) then v
        else
          let xrayBlocked :=
            match attackerDirection with
            | some ad =>
              match ks.travel ad with
              | some xs =>
                (match attackerPiece with
                  | .bishop | .rook | .queen => true
                  | _ => false) && xs == square
              | none => false
            | none => false
          if xrayBlocked then v else v ++ [⟨ks, square, kind, none⟩])
    v

/-- `generate_double_check`: king evasions only. -/
def generateDoubleCheck (b : Board) : List Move :=
  match b.data.kingSquare b.side with
  | none => []
  | some ks =>
  match Bitlist.toList (b.data.attacksTo ks b.side.not) with
  | a1 :: a2 :: _ =>
    let p1 := b.data.pieceFromBit a1
    let s1 := b.squareOfPiece a1
    let d1 := Square.direction s1 ks
    let p2 := b.data.pieceFromBit a2
    let s2 := b.squareOfPiece a2
    let d2 := Square.direction s2 ks
    let isSlider := fun (p : Option Piece) =>
      match p with
      | some .bishop | some .rook | some .queen => true
      | _ => false
    ks.kingAttacks.foldl
      (fun v square =>
        let kindOpt : Option MoveType :=
          if b.data.hasPiece square then
            if b.data.colourFromSquare square == some b.side then none
            else some .capture
          else some .normal
        match kindOpt with
        | none => v
        | some kind =>
          if !(b.data.attacksTo square b.side.not == 0) then v
          else
            let xray1 :=
              match d1 with
              | some ad =>
                match ks.travel ad with
                | some xs => isSlider p1 && xs == square
                | none => false
              | none => false
            let xray2 :=
              match d2 with
              | some ad =>
                match ks.travel ad with
                | some xs => isSlider p2 && xs == square
                | none => false
              | none => false
            if xray1 || xray2 then v else v ++ [⟨ks, square, kind, none⟩])
      []
  | _ => []

/-- The `find_attackers` closure of `generate_captures`. -/
def findAttackersCap (b : Board) (pin : PinInfo) (v : List Move) (dest : Square) :
    List Move :=
  let attacks := b.data.attacksTo dest b.side
  let v := (Bitlist.toList (attacks &&& b.data.piecemask.pawns)).foldl
    (fun v capturer =>
      let src := b.squareOfPiece capturer
      if rankIsRelativeEighth (Square.rank dest) b.side then
        promotionPieces.foldl
          (fun v p => pushOpt v (tryPushMove b pin src dest .capturePromotion (some p))) v
      else pushOpt v (tryPushMove b pin src dest .capture none))
    v
  let capturers := Bitlist.toList (attacks &&& b.data.piecemask.knights) ++
    Bitlist.toList (attacks &&& b.data.piecemask.bishops) ++
    Bitlist.toList (attacks &&& b.data.piecemask.rooks) ++
    Bitlist.toList (attacks &&& b.data.piecemask.queens)
  let v := capturers.foldl
    (fun v c => pushOpt v (tryPushMove b pin (b.squareOfPiece c) dest .capture none)) v
  (Bitlist.toList (attacks &&& b.data.piecemask.kings)).foldl
    (fun v c =>
      if !(b.data.attacksTo dest b.side.not == 0) then v
      else pushOpt v (tryPushMove b pin (b.squareOfPiece c) dest .capture none))
    v

/-- `generate_captures`: captures and capture-promotions, victims most
valuable first. -/
def generateCaptures (b : Board) : List Move :=
  let pin := PinInfo.discover b
  let enemy := b.data.piecesOfColour b.side.not
  let victims := Bitlist.toList (enemy &&& b.data.piecemask.queens) ++
    Bitlist.toList (enemy &&& b.data.piecemask.rooks) ++
    Bitlist.toList (enemy &&& b.data.piecemask.bishops) ++
    Bitlist.toList (enemy &&& b.data.piecemask.knights) ++
    Bitlist.toList (enemy &&& b.data.piecemask.pawns)
  let v := victims.foldl (fun v victim => findAttackersCap b pin v (b.squareOfPiece victim)) []
  generatePawnEnpassant b pin v

/-- `Board::generate`: all legal moves. -/
def generate (b : Board) : List Move :=
  match b.data.kingSquare b.side with
  | none => []
  | some ks =>
  let checks := b.data.attacksTo ks b.side.not
  if Bitlist.countOnes checks == 1 then generateSingleCheck b
  else if Bitlist.countOnes checks == 2 then generateDoubleCheck b
  else
    let pin := PinInfo.discover b
    let v := generateCaptures b
    let v := (Bitlist.toList (b.data.piecemask.pawns &&& Bitlist.maskFromColour b.side)).foldl
      (fun v pawn => generatePawnQuiet b (b.squareOfPiece pawn) pin v) v
    let v := (List.range 64).foldl
      (fun v dest =>
        if b.data.hasPiece dest then v
        else
          (Bitlist.toList (b.data.attacksTo dest b.side &&&
              (b.data.piecemask.pawns).invert)).foldl
            (fun v attacker =>
              if b.data.pieceFromBit attacker == some Piece.king &&
                  !(b.data.attacksTo dest b.side.not == 0) then v
              else pushOpt v (tryPushMove b pin (b.squareOfPiece attacker) dest .normal none))
            v)
      v
    let v :=
      if (b.side == Colour.white && b.castleWK) || (b.side == Colour.black && b.castleBK) then
        match ks.travel .east with
        | none => v
        | some east1 =>
          match east1.travel .east with
          | none => v
          | some east2 =>
            if (b.data.attacksTo ks b.side.not == 0) && !b.data.hasPiece east1 &&
                (b.data.attacksTo east1 b.side.not == 0) && !b.data.hasPiece east2 &&
                (b.data.attacksTo east2 b.side.not == 0) then
              pushOpt v (tryPushMove b pin ks east2 .castle none)
            else v
      else v
    if (b.side == Colour.white && b.castleWQ) || (b.side == Colour.black && b.castleBQ) then
      match ks.travel .west with
      | none => v
      | some west1 =>
        match west1.travel .west with
        | none => v
        | some west2 =>
          match west2.travel .west with
          | none => v
          | some west3 =>
            if (b.data.attacksTo ks b.side.not == 0) && !b.data.hasPiece west1 &&
                (b.data.attacksTo west1 b.side.not == 0) && !b.data.hasPiece west2 &&
                (b.data.attacksTo west2 b.side.not == 0) && !b.data.hasPiece west3 then
              pushOpt v (tryPushMove b pin ks west2 .castle none)
            else v
    else v

/-- The bad-capture test of `generate_captures_incremental`: the source
calls full `static_exchange_evaluation` here (an unreachable panic inside
it reads as "keep"). -/
def seeLt0 (b : Board) (m : Move) : Bool :=
  match see b m with
  | some s => decide (s < 0)
  | none => false

/-- The pawn loop of the `find_attackers` closure of
`generate_captures_incremental`: pawn captures (with promotions on the
relative eighth rank), never subject to the bad-capture test. -/
def incPawnPhase (b : Board) (pin : PinInfo) (dest : Square) (v : List Move) :
    List Move :=
  (Bitlist.toList (b.data.attacksTo dest b.side &&& b.data.piecemask.pawns)).foldl
    (fun v capturer =>
      let src := b.squareOfPiece capturer
      if rankIsRelativeEighth (Square.rank dest) b.side then
        promotionPieces.foldl
          (fun v p => pushOpt v (tryPushMove b pin src dest .capturePromotion (some p))) v
      else pushOpt v (tryPushMove b pin src dest .capture none))
    v

/-- The knight/bishop loop of `find_attackers`: skipped when the victim
class is below bishop and the full SEE of the capture is negative. -/
def incNBPhase (b : Board) (pin : PinInfo) (dest : Square) (victimType : Piece)
    (v : List Move) : List Move :=
  (Bitlist.toList (b.data.attacksTo dest b.side &&& (b.data.piecemask.knights |||
      b.data.piecemask.bishops))).foldl
    (fun v c =>
      let src := b.squareOfPiece c
      if victimType.lt .bishop && seeLt0 b ⟨src, dest, .capture, none⟩ then v
      else pushOpt v (tryPushMove b pin src dest .capture none))
    v

/-- The rook loop of `find_attackers`. -/
def incRookPhase (b : Board) (pin : PinInfo) (dest : Square) (victimType : Piece)
    (v : List Move) : List Move :=
  (Bitlist.toList (b.data.attacksTo dest b.side &&& b.data.piecemask.rooks)).foldl
    (fun v c =>
      let src := b.squareOfPiece c
      if victimType.lt .rook && seeLt0 b ⟨src, dest, .capture, none⟩ then v
      else pushOpt v (tryPushMove b pin src dest .capture none))
    v

/-- The queen loop of `find_attackers`. -/
def incQueenPhase (b : Board) (pin : PinInfo) (dest : Square) (victimType : Piece)
    (v : List Move) : List Move :=
  (Bitlist.toList (b.data.attacksTo dest b.side &&& b.data.piecemask.queens)).foldl
    (fun v c =>
      let src := b.squareOfPiece c
      if victimType.lt .queen && seeLt0 b ⟨src, dest, .capture, none⟩ then v
      else pushOpt v (tryPushMove b pin src dest .capture none))
    v

/-- The king loop of `find_attackers`: only when the victim square is
undefended. -/
def incKingPhase (b : Board) (pin : PinInfo) (dest : Square) (v : List Move) :
    List Move :=
  (Bitlist.toList (b.data.attacksTo dest b.side &&& b.data.piecemask.kings)).foldl
    (fun v c =>
      if !(b.data.attacksTo dest b.side.not == 0) then v
      else pushOpt v (tryPushMove b pin (b.squareOfPiece c) dest .capture none))
    v

/-- The `find_attackers` closure of `generate_captures_incremental`:
attackers cheapest first (pawns, then knights/bishops, then rooks, then
queens, then the king); for a victim class below the attacker class the
capture is skipped when its full SEE is negative. -/
def findAttackersInc (b : Board) (pin : PinInfo) (dest : Square) (victimType : Piece)
    (v : List Move) : List Move :=
  incKingPhase b pin dest
    (incQueenPhase b pin dest victimType
      (incRookPhase b pin dest victimType
        (incNBPhase b pin dest victimType
          (incPawnPhase b pin dest v))))

/-- The sequence of moves `generate_captures_incremental` offers to its
callback (the callback only ever cuts this sequence short, so the staged
generator is embedded as the full emission list).  The `minor_mask`,
`rook_mask` and `queen_mask` variables of the source are built up but never
read by `find_attackers`, so they do not appear here. -/
def incrementalCaptures (b : Board) : List Move :=
  match b.data.kingSquare b.side with
  | none => []
  | some ks =>
  let checks := b.data.attacksTo ks b.side.not
  if Bitlist.countOnes checks != 0 then
    (if Bitlist.countOnes checks == 1 then generateSingleCheck b
     else if Bitlist.countOnes checks == 2 then generateDoubleCheck b
     else []).filter Move.isCapture
  else
    let pin := PinInfo.discover b
    let enemy := b.data.piecesOfColour b.side.not
    let v := (Bitlist.toList (enemy &&& b.data.piecemask.queens)).foldl
      (fun v vi => findAttackersInc b pin (b.squareOfPiece vi) .queen v) []
    let v := (Bitlist.toList (enemy &&& b.data.piecemask.rooks)).foldl
      (fun v vi => findAttackersInc b pin (b.squareOfPiece vi) .rook v) v
    let v := (Bitlist.toList (enemy &&& (b.data.piecemask.knights |||
        b.data.piecemask.bishops))).foldl
      (fun v vi => findAttackersInc b pin (b.squareOfPiece vi) .bishop v) v
    (Bitlist.toList (enemy &&& b.data.piecemask.pawns)).foldl
      (fun v vi => findAttackersInc b pin (b.squareOfPiece vi) .pawn v) v

/-- `perft`: leaf count of the legal-move tree (`lib.rs`).  `none` when a
`make` panics. -/
def perft (b : Board) : Nat → Option Nat
  | 0 => some 1
  | 1 => some (generate b).length
  | depth + 2 =>
    (generate b).foldlM
      (fun acc m => do
        let b' ← b.make m
        let n ← perft b' (depth + 1)
        return acc + n)
      0

end Yukari

namespace Yukari

/-!  ## NNUE accumulators (`eval.rs` and the eval calls of `data.rs`)

`eval.rs` defines the feature indexing: from a perspective `P`, a piece of
colour `c` and type `p` on square `s` selects feature-weight column
`64*((0 if c = P else 6) + p) + (s if P is white else s flipped)` — the
spec's §3 formula.  The network weights live in a binary absent from
`src/`, so a weight column component is an abstract `w : Nat → Int` and the
bias an abstract `bias : Int`; every accumulator statement is proved for
all `w` and `bias`.

`data.rs` calls `add_piece_for_acc`, `remove_piece_for_acc` and
`reset_colour`, which are missing from the `eval.rs` under `src/`; they are
modelled from the spec ("reset to bias, then every piece's feature
re-added"): the `for_acc` variants update a single perspective's
accumulator and `reset_colour` restores one accumulator to the bias.  The
king-square arguments threaded by `data.rs` are unused by this feature
indexing (the spec notes the rebuild merely "supports a king-bucketed
network variant"). -/

/-- Feature index of (piece, colour, square) from a perspective. -/
def featureIndex (persp : Colour) (p : Piece) (c : Colour) (s : Square) : Nat :=
  64 * ((if c = persp then 0 else 6) + p.toNat) + (if persp = .white then s else s.flip)

/-- One abstract component of the two perspective accumulators. -/
structure EvalAcc where
  white : Int
  black : Int
deriving DecidableEq, Repr

/-- `Eval::new`: both accumulators start from the bias. -/
def EvalAcc.new (bias : Int) : EvalAcc := ⟨bias, bias⟩

/-- `Eval::add_piece`: add the feature in both perspectives. -/
def evalAddPiece (w : Nat → Int) (e : EvalAcc) (p : Piece) (s : Square) (c : Colour) :
    EvalAcc :=
  ⟨e.white + w (featureIndex .white p c s), e.black + w (featureIndex .black p c s)⟩

/-- `Eval::remove_piece`. -/
def evalRemovePiece (w : Nat → Int) (e : EvalAcc) (p : Piece) (s : Square) (c : Colour) :
    EvalAcc :=
  ⟨e.white - w (featureIndex .white p c s), e.black - w (featureIndex .black p c s)⟩

/-- `Eval::move_piece`: remove at the origin, add at the destination. -/
def evalMovePiece (w : Nat → Int) (e : EvalAcc) (p : Piece) (fromSq toSq : Square)
    (c : Colour) : EvalAcc :=
  evalAddPiece w (evalRemovePiece w e p fromSq c) p toSq c

/-- Modelled from the spec: `Eval::add_piece_for_acc` updates only the
chosen perspective's accumulator. -/
def evalAddPieceForAcc (w : Nat → Int) (e : EvalAcc) (p : Piece) (s : Square)
    (c : Colour) (forWhite : Bool) : EvalAcc :=
  if forWhite then { e with white := e.white + w (featureIndex .white p c s) }
  else { e with black := e.black + w (featureIndex .black p c s) }

/-- Modelled from the spec: `Eval::remove_piece_for_acc`. -/
def evalRemovePieceForAcc (w : Nat → Int) (e : EvalAcc) (p : Piece) (s : Square)
    (c : Colour) (forWhite : Bool) : EvalAcc :=
  if forWhite then { e with white := e.white - w (featureIndex .white p c s) }
  else { e with black := e.black - w (featureIndex .black p c s) }

/-- Modelled from the spec: `Eval::reset_colour` resets one perspective's
accumulator to the bias. -/
def evalResetColour (bias : Int) (e : EvalAcc) (c : Colour) : EvalAcc :=
  match c with
  | .white => { e with white := bias }
  | .black => { e with black := bias }

/-- The eval portion of `BoardData::move_piece` (`data.rs` lines 186–205):
on a king crossing between files A–D and E–H the moving side's accumulator
is reset to bias and rebuilt from the post-move piece configuration, and
the opposite perspective receives the incremental king update; any other
move updates both perspectives incrementally.  `dAfter` is the board data
with `piecelist`/`index` already moved, exactly the state the source loop
reads. -/
def movePieceEval (w : Nat → Int) (bias : Int) (dAfter : BoardData) (i : Nat)
    (p : Piece) (fromSq toSq : Square) (e : EvalAcc) : EvalAcc :=
  let crossing := p == Piece.king &&
    ((Square.file fromSq ≥ 4 && Square.file toSq ≤ 3) ||
      (Square.file fromSq ≤ 3 && Square.file toSq ≥ 4))
  if crossing then
    let e := evalResetColour bias e (indexColour i)
    let e := (List.range 64).foldl
      (fun e sq =>
        match dAfter.index.get sq with
        | none => e
        | some j =>
          match dAfter.pieceFromBit j with
          | none => e
          | some pj => evalAddPieceForAcc w e pj sq (indexColour j) (indexIsWhite i))
      e
    let e := evalRemovePieceForAcc w e p fromSq (indexColour i) (!indexIsWhite i)
    evalAddPieceForAcc w e p toSq (indexColour i) (!indexIsWhite i)
  else evalMovePiece w e p fromSq toSq (indexColour i)

/-- `BoardData::add_piece` together with its eval update. -/
def BoardData.addPieceE (w : Nat → Int) (d : BoardData) (e : EvalAcc) (p : Piece)
    (c : Colour) (s : Square) (update : Bool) : Option (BoardData × EvalAcc) := do
  let d' ← d.addPiece p c s update
  return (d', evalAddPiece w e p s c)

/-- `BoardData::remove_piece` together with its eval update. -/
def BoardData.removePieceE (w : Nat → Int) (d : BoardData) (e : EvalAcc) (i : Nat)
    (update : Bool) : Option (BoardData × EvalAcc) := do
  let s := d.squareOfPiece i
  let p ← d.pieceFromBit i
  let d' ← d.removePiece i update
  return (d', evalRemovePiece w e p s (indexColour i))

/-- `BoardData::move_piece` together with its eval update. -/
def BoardData.movePieceE (w : Nat → Int) (bias : Int) (d : BoardData) (e : EvalAcc)
    (fromSq toSq : Square) : Option (BoardData × EvalAcc) := do
  let i ← d.index.get fromSq
  let p ← d.pieceFromBit i
  let d' ← d.movePiece fromSq toSq
  return (d', movePieceEval w bias d' i p fromSq toSq e)

/-- Feature contribution of one square: the weight column selected by the
(piece, square, colour) tuple occupying it, or zero. -/
def sqFeat (w : Nat → Int) (persp : Colour) (d : BoardData) (s : Nat) : Int :=
  match d.index.get s with
  | none => 0
  | some i =>
    match d.piecemask.piece i with
    | none => 0
    | some p => w (featureIndex persp p (indexColour i) s)

/-- Sum of the feature-weight columns selected by the current set of
(piece, square, colour) tuples, from one perspective. -/
def featSum (w : Nat → Int) (persp : Colour) (d : BoardData) : Int :=
  ∑ s ∈ Finset.range 64, sqFeat w persp d s

/-- The accumulator invariant: both accumulators equal the bias plus the
sum of the feature-weight columns of the current piece set, each from its
own perspective. -/
def accInvariant (w : Nat → Int) (bias : Int) (d : BoardData) (e : EvalAcc) : Prop :=
  e.white = bias + featSum w .white d ∧ e.black = bias + featSum w .black d

end Yukari

namespace Yukari

/-!  ## Search (`search.rs`)

Embedding notes:
  * `nodes`/`qnodes` counters and the deadline check feed only statistics
    and the real-time cancellation (`stop_after`); the embedding models a
    search with `stop_after = None`, where that branch never fires;
  * `pv` out-parameters carry no influence on returned scores and are
    dropped;
  * the float `ln`-formula of late move reductions is the abstract
    `SearchCtx.lmr` parameter;
  * the NNUE evaluation (weights binary absent from `src/`) is the
    abstract `SearchCtx.evalFn` parameter;
  * the transposition table's key-XOR-data tag is a torn-write guard; in a
    single-threaded embedding an entry simply stores its position hash,
    which a probe compares against;
  * `i32` division is `Int.tdiv` (truncation towards zero). -/

/-- Truncate to a 16-bit two's-complement value (`as i16`). -/
def i16wrap (x : Int) : Int := (x + 32768) % 65536 - 32768

/-- `clamp`. -/
def clampInt (x lo hi : Int) : Int := max lo (min hi x)

/-- The integer search parameters (`SearchParams` without the two float
LMR constants, which are folded into `SearchCtx.lmr`). -/
structure SearchParams where
  rfpMarginBase : Int
  rfpMarginMul : Int
  razorMarginMul : Int
  histBonusBase : Int
  histBonusMul : Int
  histPenBase : Int
  histPenMul : Int
deriving Repr

/-- The default parameter values of `search.rs`. -/
def SearchParams.defaults : SearchParams := ⟨0, 37, 250, 250, 300, 250, 300⟩

/-- Transposition-table bound kinds. -/
inductive TtFlags where
  | exact
  | upper
  | lower
deriving DecidableEq, Repr

/-- A decoded transposition-table payload. -/
structure TtData where
  flags : TtFlags
  depth : Nat
  score : Int
  m : Option Move
deriving DecidableEq, Repr

/-- A transposition-table entry: verification tag and payload (the Rust
key is `hash XOR data`; single-threaded this is equivalent to storing the
hash itself, which is what the embedding does). -/
structure TtEntry where
  key : Nat
  data : TtData
deriving DecidableEq, Repr

/-- The mutable search state threaded through the recursion. -/
structure SearchState where
  history : Nat → Nat → Int
  corrhist : Colour → Nat → Int
  tt : Nat → TtEntry

/-- The read-only search context. -/
structure SearchCtx where
  params : SearchParams
  evalFn : Board → Colour → Int
  lmr : Int → Nat → Int
  ttSize : Nat

/-- `is_repetition_draw`: the hash occurs at least three times. -/
def isRepetitionDraw (keystack : List Nat) (hash : Nat) : Bool :=
  3 ≤ (keystack.filter (· == hash)).length

/-- `eval_with_corrhist`. -/
def evalWithCorrhist (st : SearchState) (b : Board) (e : Int) : Int :=
  clampInt (e + Int.tdiv (st.corrhist b.side (b.hashPawns &&& 16383)) 256) (-9999) 9999

/-- `update_history` (history gravity, clamped to ±16384, stored as i16). -/
def updateHistory (st : SearchState) (m : Move) (bonus : Int) : SearchState :=
  let bonus := clampInt bonus (-16384) 16384
  let h := st.history m.src m.dst
  let bonus := bonus - Int.tdiv (h * |bonus|) 16384
  { st with history := fun a c =>
      if a = m.src ∧ c = m.dst then i16wrap (h + bonus) else st.history a c }

/-- `update_corrhist`. -/
def updateCorrhist (st : SearchState) (b : Board) (depth : Int) (diff : Int) :
    SearchState :=
  let idx := b.hashPawns &&& 16383
  let entry := st.corrhist b.side idx
  let diff := diff * 256
  let weight := min 16 (depth + 1)
  let newVal := clampInt (Int.tdiv (entry * (256 - weight) + diff * weight) 256)
    (-8192) 8192
  { st with corrhist := fun c n =>
      if c = b.side ∧ n = idx then newVal else st.corrhist c n }

/-- `probe_tt`: returns a usable score, or seeds the hash move. -/
def probeTT (ctx : SearchCtx) (st : SearchState) (b : Board) (depth : Int) (ply : Nat)
    (lower upper : Int) : Option Int × Option Move :=
  let e := st.tt (b.hash &&& (ctx.ttSize - 1))
  if e.key = b.hash then
    if (e.data.depth : Int) ≥ depth then
      let score := e.data.score
      let score := if score ≥ 9500 then score - ply else score
      let score := if score ≤ -9500 then score + ply else score
      match e.data.flags with
      | .exact => (some score, none)
      | .upper => if score ≤ lower then (some score, none) else (none, e.data.m)
      | .lower => if score ≥ upper then (some score, none) else (none, e.data.m)
    else (none, e.data.m)
  else (none, none)

/-- `write_tt`. -/
def writeTT (ctx : SearchCtx) (st : SearchState) (b : Board) (ply : Nat)
    (data : TtData) : SearchState :=
  let data := if data.score ≥ 9500 then { data with score := data.score + ply } else data
  let data := if data.score ≤ -9500 then { data with score := data.score - ply } else data
  let idx := b.hash &&& (ctx.ttSize - 1)
  { st with tt := fun n => if n = idx then ⟨b.hash, data⟩ else st.tt n }

/-- `Ordering::then_with`. -/
def ordThen : Ordering → Ordering → Ordering
  | .eq, b => b
  | a, _ => a

/-- Rank of an `Option<Piece>` under the derived Rust order
(`None < Some Pawn < ... < Some King`). -/
def optPieceOrd : Option Piece → Nat
  | none => 0
  | some p => p.toNat + 1

/-- The non-TT part of the move-ordering comparator of `Search::search`:
any capture sorts before any quiet move; two captures compare by most
valuable victim then least valuable attacker; two quiet moves compare by
descending history. -/
def moveOrderRest (b : Board) (hist : Nat → Nat → Int) (x y : Move) : Ordering :=
  match x.isCapture, y.isCapture with
  | false, false => compare (hist y.src y.dst) (hist x.src x.dst)
  | false, true => .gt
  | true, false => .lt
  | true, true =>
    ordThen
      (compare (optPieceOrd (b.pieceFromSquare y.dst))
        (optPieceOrd (b.pieceFromSquare x.dst)))
      (compare (optPieceOrd (b.pieceFromSquare x.src))
        (optPieceOrd (b.pieceFromSquare y.src)))

/-- The move-ordering comparator of `Search::search` (`search.rs` lines
336–359): the TT move first, then `moveOrderRest`. -/
def moveOrderCmp (b : Board) (hist : Nat → Nat → Int) (ttm : Option Move)
    (x y : Move) : Ordering :=
  match ttm with
  | some t => if x = t then .lt else if y = t then .gt else moveOrderRest b hist x y
  | none => moveOrderRest b hist x y

/-- The comparator as a relation ("not after"). -/
def moveOrderLe (b : Board) (hist : Nat → Nat → Int) (ttm : Option Move)
    (x y : Move) : Prop :=
  moveOrderCmp b hist ttm x y ≠ .gt

instance (b : Board) (hist : Nat → Nat → Int) (ttm : Option Move) :
    DecidableRel (moveOrderLe b hist ttm) := fun x y => by
  unfold moveOrderLe; infer_instance

/-- `moves.sort_by(...)`: Rust's stable sort, embedded as a stable
insertion sort with the same comparator. -/
def sortMoves (b : Board) (hist : Nat → Nat → Int) (ttm : Option Move)
    (moves : List Move) : List Move :=
  List.insertionSort (moveOrderLe b hist ttm) moves

/-- The capture loop of `quiesce`, cut short by a fail-high. -/
def quiesceLoop (b : Board) (β : Int) (f : Board → Int → Int → Option Int) :
    List Move → Int → Int → Option Int
  | [], _, best => some best
  | m :: rest, α, best => do
    let b' ← b.make m
    let s ← f b' (-β) (-α)
    let score := -s
    let best := max best score
    if score ≥ β then some best
    else
      let α := if score > α then score else α
      quiesceLoop b β f rest α best

/-- `Search::quiesce`: stand pat on the corrected static eval, then try the
staged captures; fail-soft.  The 63-ply emergency bailout makes the Rust
recursion terminate, so fuel 64 is always enough; a fuel-out step returns
the stand-pat score. -/
def quiesce (ctx : SearchCtx) (st : SearchState) :
    Nat → Board → Int → Int → Nat → Option Int
  | 0, b, _, _, _ => some (evalWithCorrhist st b (ctx.evalFn b b.side))
  | fuel + 1, b, α, β, ply =>
    let best := evalWithCorrhist st b (ctx.evalFn b b.side)
    if ply == 63 then some best
    else if best ≥ β then some best
    else
      let α := max α best
      quiesceLoop b β (fun b' a' b2 => quiesce ctx st fuel b' a' b2 (ply + 1))
        (incrementalCaptures b) α best

/-- The move loop of `Search::search`.  `rec` is the recursion one ply
deeper; the loop threads the search state, the window, the running best
and the raised flag, and stops on a fail-high after granting history
bonuses and penalties. -/
def searchMoveLoop (ctx : SearchCtx)
    (rec : SearchState → Board → Int → Int → Int → List Nat → Option (Int × SearchState))
    (b : Board) (depth : Int) (β : Int) (ks : List Nat) (inChk : Bool)
    (sorted : List Move) :
    List (Nat × Move) → SearchState → Int → Int → Option Move → Bool →
    Option (SearchState × Int × Option Move × Bool × Int)
  | [], st, α, best, bm, raised => some (st, best, bm, raised, α)
  | (i, m) :: rest, st, α, best, bm, raised => do
    let b' ← b.make m
    let ks' := ks ++ [b.hash]
    let reduction : Int :=
      if α == β - 1 && depth ≥ 3 && i ≥ 4 && !inChk && !m.isCapture then
        1 + ctx.lmr depth i
      else 1
    let (score, st) ←
      if i > 0 then do
        let (s1, st) ← rec st b' (depth - reduction) (-α - 1) (-α) ks'
        pure (-s1, st)
      else pure ((0 : Int), st)
    let (_reduction, score, st) ←
      if i > 0 && reduction > 1 && score > α then do
        let (s2, st) ← rec st b' (depth - 1) (-α - 1) (-α) ks'
        pure ((1 : Int), -s2, st)
      else pure (reduction, score, st)
    let (score, st) ←
      if i == 0 || (α != β - 1 && score > α) then do
        let (s3, st) ← rec st b' (depth - 1) (-β) (-α) ks'
        pure (-s3, st)
      else pure (score, st)
    let (best, bm) := if score > best then (score, some m) else (best, bm)
    if score ≥ β then
      let st :=
        if !m.isCapture then
          let bonus := ctx.params.histBonusMul * depth - ctx.params.histBonusBase
          let penalty := ctx.params.histPenMul * depth - ctx.params.histPenBase
          let st := (sorted.take i).foldl
            (fun st em => if em.isCapture then st else updateHistory st em (-penalty)) st
          updateHistory st m bonus
        else st
      some (st, best, bm, raised, α)
    else
      let (α, raised) := if score > α then (score, true) else (α, raised)
      searchMoveLoop ctx rec b depth β ks inChk sorted rest st α best bm raised

/-- Everything of `Search::search` after the TT probe and internal
iterative reduction: static pruning, null move, move loop, TT store and
corrhist update. -/
def searchBody (ctx : SearchCtx)
    (rec : SearchState → Board → Int → Int → Int → Nat → List Nat →
      Option (Int × SearchState))
    (st : SearchState) (b : Board) (depth : Int) (ttMove : Option Move)
    (lower upper : Int) (ply : Nat) (ks : List Nat) : Option (Int × SearchState) :=
  let evalInt := evalWithCorrhist st b (ctx.evalFn b b.side)
  let rfpMargin := ctx.params.rfpMarginBase + ctx.params.rfpMarginMul * depth
  if !b.inCheck && depth ≤ 3 && evalInt - rfpMargin ≥ upper then
    some (evalInt - rfpMargin, st)
  else
    let razorMargin := ctx.params.razorMarginMul * depth
    let afterNull : SearchState → Option (Int × SearchState) := fun st =>
      let moves := generate b
      if moves.isEmpty then
        if b.inCheck then some (-10000 + ply, st) else some (0, st)
      else if isRepetitionDraw ks b.hash then some (0, st)
      else
        let sorted := sortMoves b st.history ttMove moves
        match searchMoveLoop ctx (fun st b' d l u ks' => rec st b' d l u (ply + 1) ks')
            b depth upper ks b.inCheck sorted sorted.enum st lower (-2147483648) none
            false with
        | none => none
        | some (st, best, bm, raised, αFinal) =>
          let flags :=
            if best ≥ upper then TtFlags.lower
            else if raised then TtFlags.exact else TtFlags.upper
          let st := writeTT ctx st b ply ⟨flags, depth.toNat % 256, i16wrap best, bm⟩
          if !b.inCheck then
            match bm with
            | none => none
            | some bmv =>
              let st :=
                if !bmv.isCapture &&
                    (raised || (best ≥ upper && best ≥ evalInt) ||
                      (best ≤ αFinal && best ≤ evalInt)) then
                  updateCorrhist st b depth (best - evalInt)
                else st
              some (best, st)
          else some (best, st)
    let nullStep : SearchState → Option (Int × SearchState) := fun st =>
      let reduction := (if depth > 6 then (4 : Int) else 3) +
        max (Int.tdiv (evalInt - upper) 200) 0
      if !b.inCheck && depth ≥ 2 && evalInt ≥ upper then
        match rec st b.makeNull (depth - 1 - reduction) (-upper) (-upper + 1) (ply + 1)
            (ks ++ [b.hash]) with
        | none => none
        | some (s, st1) => if -s ≥ upper then some (-s, st1) else afterNull st1
      else afterNull st
    if !b.inCheck && depth ≤ 3 && |lower| < 2000 && evalInt + razorMargin ≤ lower then
      match quiesce ctx st 64 b lower (lower + 1) ply with
      | none => none
      | some score => if score ≤ lower then some (score, st) else nullStep st
    else nullStep st

/-- `Search::search`, fuel-indexed (the source recursion is bounded by the
63-ply bailout; running out of fuel is the `none` outcome). -/
def search (ctx : SearchCtx) :
    Nat → SearchState → Board → Int → Int → Int → Nat → List Nat →
    Option (Int × SearchState)
  | 0, _, _, _, _, _, _, _ => none
  | fuel + 1, st, b, depth0, lower, upper, ply, ks =>
    if ply == 63 then some (evalWithCorrhist st b (ctx.evalFn b b.side), st)
    else
      let depth := if b.inCheck then depth0 + 1 else depth0
      if depth ≤ 0 then (quiesce ctx st 64 b lower upper ply).map (fun s => (s, st))
      else
        let (probeScore, ttMove) := probeTT ctx st b depth ply lower upper
        match probeScore with
        | some score =>
          if lower == upper - 1 then some (score, st)
          else searchBody ctx (fun st b' d l u p' ks' => search ctx fuel st b' d l u p' ks')
            st b depth ttMove lower upper ply ks
        | none =>
          let depth := if lower != upper - 1 && ttMove == none && depth ≥ 3 then
              depth - 1 else depth
          searchBody ctx (fun st b' d l u p' ks' => search ctx fuel st b' d l u p' ks')
            st b depth ttMove lower upper ply ks

end Yukari

namespace Yukari

/-!  ## Hash reconstruction (claim C2)

Modelled from the spec: the from-scratch XOR over a position's contents —
the piece-square key of every piece, the side-to-move key, one key per held
castling right, and the en-passant file key when one is set.  The side key
is XORed in for black to move: `toggle_side` flips it on every `make`, and
parsing a white-to-move FEN performs no side XOR, which pins white to move
as the empty baseline. -/

/-- The from-scratch XOR reconstruction of a board's Zobrist hash. -/
def hashReconstruct (b : Board) : Nat :=
  let h := (List.range 64).foldl
    (fun h s =>
      match b.data.index.get s with
      | none => h
      | some i =>
        match b.data.piecemask.piece i with
        | none => h
        | some p => h ^^^ Zobrist.pieceKey (indexColour i) p s)
    0
  let h := if b.side = .black then h ^^^ Zobrist.sideKey else h
  let h := if b.castleWK then h ^^^ Zobrist.castleKey 0 else h
  let h := if b.castleWQ then h ^^^ Zobrist.castleKey 1 else h
  let h := if b.castleBK then h ^^^ Zobrist.castleKey 2 else h
  let h := if b.castleBQ then h ^^^ Zobrist.castleKey 3 else h
  match b.ep with
  | some e => h ^^^ Zobrist.epKey (Square.file e)
  | none => h

/-- Evaluate a parsed position, or fall back to the empty board (used only
on FEN strings that demonstrably parse). -/
def boardOfFen (s : String) : Board :=
  match fromFen s with
  | .ok (some b) => b
  | _ => Board.new

/-- Whether a FEN string parses to a position (no panic, no failure). -/
def fenParses (s : String) : Bool :=
  match fromFen s with
  | .ok (some _) => true
  | _ => false

/-- SEE of a move on a parsed position. -/
def seeOnFen (s : String) (m : Move) : Option Int := see (boardOfFen s) m

end Yukari

namespace Yukari

/-!  ## Theorems for the claims -/

/-- Sanity check of the embedding (claim C1 context): the move generator
finds exactly 20 moves in the starting position. -/
theorem perft_startpos_depth1 :
    fenParses startposFen = true ∧ perft (boardOfFen startposFen) 1 = some 20 := by
  constructor
  · decide
  · decide

/--
C5: `Board::static_exchange_evaluation` returns exactly the tagged values
on the five listed positions: the knight capture d3e5 is worth 1 with the
queen off the board and −2 with the queen on h8; the f7f8=Q promotion is
worth 8 unopposed and 2 against the e7 bishop; and the h5g4 pawn capture
trades off to 0.  (Squares: d3 = 19, e5 = 36, f7 = 53, f8 = 61, h5 = 39,
g4 = 30.)
-/
theorem c5_see_tagged_positions :
    (fenParses "1k1r4/1ppn3p/p4b2/4n3/8/P2N2P1/1PP1R1BP/2K1Q3 w - -" = true ∧
      seeOnFen "1k1r4/1ppn3p/p4b2/4n3/8/P2N2P1/1PP1R1BP/2K1Q3 w - -"
        ⟨19, 36, .capture, none⟩ = some 1) ∧
    (fenParses "1k1r3q/1ppn3p/p4b2/4p3/8/P2N2P1/1PP1R1BP/2K1Q3 w - -" = true ∧
      seeOnFen "1k1r3q/1ppn3p/p4b2/4p3/8/P2N2P1/1PP1R1BP/2K1Q3 w - -"
        ⟨19, 36, .capture, none⟩ = some (-2)) ∧
    (fenParses "7R/5P2/8/8/6r1/3K4/5p2/4k3 w - -" = true ∧
      seeOnFen "7R/5P2/8/8/6r1/3K4/5p2/4k3 w - -"
        ⟨53, 61, .promotion, some .queen⟩ = some 8) ∧
    (fenParses "6RR/4bP2/8/8/5r2/3K4/5p2/4k3 w - -" = true ∧
      seeOnFen "6RR/4bP2/8/8/5r2/3K4/5p2/4k3 w - -"
        ⟨53, 61, .promotion, some .queen⟩ = some 2) ∧
    (fenParses "4R3/2r3p1/5bk1/1p1r3p/p2PR1P1/P1BK1P2/1P6/8 b - -" = true ∧
      seeOnFen "4R3/2r3p1/5bk1/1p1r3p/p2PR1P1/P1BK1P2/1P6/8 b - -"
        ⟨39, 30, .capture, none⟩ = some 0) := by
  exact ⟨⟨by decide, by decide⟩, ⟨by decide, by decide⟩, ⟨by decide, by decide⟩,
    ⟨by decide, by decide⟩, ⟨by decide, by decide⟩⟩

/-- The position after 1.e4, as a FEN (black to move, en passant on e3). -/
def fenAfterE4 : String := "rnbqkbnr/pppppppp/8/8/4P3/8/PPPP1PPP/RNBQKBNR b KQkq e3 0 1"

/-- The position after 1.e4 reached through `make` from the starting
position (the parse demonstrably succeeds; see the claim's theorem). -/
def makePathE4 : Board :=
  (((boardOfFen startposFen).make ⟨12, 28, .doublePush, none⟩).getD Board.new)

/--
C2 (code bug): `from_fen` stores the side to move and the en-passant
square directly into the board without XORing their keys into the Zobrist
hash, so for a black-to-move FEN with an en-passant square the parsed
board's `hash()` differs from the from-scratch XOR reconstruction — while
the very same position reached through `make` (which hashes both via
`toggle_side` and `set_ep`) satisfies the reconstruction and therefore
carries a different hash than the parsed copy.
-/
theorem c2_fen_hash_misses_side_and_ep_keys :
    (fenParses fenAfterE4 = true ∧
      (boardOfFen fenAfterE4).hash ≠ hashReconstruct (boardOfFen fenAfterE4)) ∧
    ((boardOfFen startposFen).make ⟨12, 28, .doublePush, none⟩).isSome = true ∧
    makePathE4.hash = hashReconstruct makePathE4 ∧
    makePathE4.hash ≠ (boardOfFen fenAfterE4).hash ∧
    makePathE4.side = (boardOfFen fenAfterE4).side ∧
    makePathE4.ep = (boardOfFen fenAfterE4).ep ∧
    ((List.range 64).all fun s =>
      makePathE4.pieceFromSquare s == (boardOfFen fenAfterE4).pieceFromSquare s &&
      makePathE4.data.colourFromSquare s ==
        (boardOfFen fenAfterE4).data.colourFromSquare s) = true := by
  exact ⟨⟨by decide, by decide⟩, by decide, by decide, by decide, by decide, by decide,
    by decide⟩

/--
C4 counterexample: the claim says `from_fen` reports every parse failure,
including truncated strings, as a missing value and never panics; but on
the truncated input `"8/8/8/8/8/8/8/8"` (a bare piece-placement field) the
parser indexes past the end of the string and panics.
-/
theorem c4_truncated_fen_panics :
    fromFen "8/8/8/8/8/8/8/8" = Panics.panicked ∧
    fromFen "" = Panics.panicked := by
  exact ⟨by decide, by decide⟩

end Yukari

namespace Yukari

/-- A parse outcome in which success implies a legal position. -/
def fenOkSomeLegal : Panics (Option Board) → Bool
  | .ok (some b) => !b.illegal
  | _ => true

/-- Panics and parse failures trivially satisfy `fenOkSomeLegal`; a final
stage that does keeps the whole chain legal. -/
theorem andThen_legal (x : Panics (Option α)) (f : α → Panics (Option Board))
    (h : ∀ a, fenOkSomeLegal (f a) = true) : fenOkSomeLegal (x.andThen f) = true := by
  cases x with
  | panicked => rfl
  | ok o =>
    cases o with
    | none => rfl
    | some a => exact h a

/--
C4 (amended): whatever the input bytes, when `from_fen_bytes` does return
a board, that board passed the `illegal()` filter — in particular the side
not to move is not in check; detected malformed fields come back as `None`
(and truncated or out-of-range input panics, per the counterexample).
-/
theorem c4_parse_success_is_legal (fen : List Nat) :
    fenOkSomeLegal (fromFenBytes fen) = true := by
  unfold fromFenBytes
  cases pRead fen 0 with
  | panicked => rfl
  | ok c0 =>
    apply andThen_legal
    rintro ⟨d, idx, c⟩
    dsimp only
    cases pRead fen (idx + 1) with
    | panicked => rfl
    | ok c1 =>
      apply andThen_legal
      intro side
      cases pRead fen (idx + 3) with
      | panicked => rfl
      | ok c2 =>
        apply andThen_legal
        rintro ⟨castles, d2, idx2⟩
        dsimp only
        cases pRead fen (idx2 + 1) with
        | panicked => rfl
        | ok c3 =>
          apply andThen_legal
          rintro ⟨ep, d3⟩
          dsimp only
          split <;> simp_all [fenOkSomeLegal]

end Yukari

namespace Yukari

/-- The quiescence capture loop never returns less than the running best it
started with, whatever the child searches report. -/
theorem quiesceLoop_ge (b : Board) (β : Int) (f : Board → Int → Int → Option Int) :
    ∀ (moves : List Move) (α best r : Int),
      quiesceLoop b β f moves α best = some r → best ≤ r := by
  intro moves
  induction moves with
  | nil =>
    intro α best r h
    simp only [quiesceLoop, Option.some.injEq] at h
    omega
  | cons m rest ih =>
    intro α best r h
    simp only [quiesceLoop, Option.bind_eq_bind, Option.bind_eq_some] at h
    obtain ⟨b', _, s, _, h⟩ := h
    split at h
    · simp only [Option.some.injEq] at h
      omega
    · have := ih _ _ _ h
      omega

/--
C10: for every window and every ply below the 63-ply cap, `quiesce` never
reports a score below the corrected stand-pat evaluation
`eval_with_corrhist(board, board.eval(board.side()))` of the position at
entry: the running best starts at the stand-pat score and only ever grows.
-/
theorem c10_quiesce_ge_standpat (ctx : SearchCtx) (st : SearchState) (fuel : Nat)
    (b : Board) (α β : Int) (ply : Nat) (r : Int)
    (hαβ : α < β) (hply : ply < 63)
    (h : quiesce ctx st fuel b α β ply = some r) :
    evalWithCorrhist st b (ctx.evalFn b b.side) ≤ r := by
  cases fuel with
  | zero =>
    simp only [quiesce, Option.some.injEq] at h
    omega
  | succ fuel =>
    simp only [quiesce] at h
    split at h
    · simp only [Option.some.injEq] at h
      omega
    · split at h
      · simp only [Option.some.injEq] at h
        omega
      · exact quiesceLoop_ge _ _ _ _ _ _ _ h

/-- The FEN of a bare-kings position used for concrete search runs. -/
def kkFen : String := "4k3/8/8/8/8/8/8/4K3 w - - 0 1"

/-- The bare-kings position. -/
def kkBoard : Board := boardOfFen kkFen

/-- A fresh search state: zero history, zero corrhist, zeroed table. -/
def st0 : SearchState := ⟨fun _ _ => 0, fun _ _ => 0, fun _ => ⟨0, ⟨.exact, 0, 0, none⟩⟩⟩

/-- A concrete search context: default parameters, a colour-constant
static eval of ±10, no extra LMR reduction, a 1024-entry table. -/
def ctx0 : SearchCtx :=
  ⟨SearchParams.defaults,
    fun _ c => match c with | .white => 10 | .black => -10,
    fun _ _ => 0, 1024⟩

/-- Witness for C10 at a concrete input: on the bare-kings position with
window (0, 5) at ply 0, quiescence returns exactly the stand-pat score. -/
theorem c10_witness :
    (0 : Int) < 5 ∧ (0 : Nat) < 63 ∧
    quiesce ctx0 st0 64 kkBoard 0 5 0 = some 10 ∧
    evalWithCorrhist st0 kkBoard (ctx0.evalFn kkBoard kkBoard.side) ≤ 10 := by
  refine ⟨by decide, by decide, by decide, ?_⟩
  exact c10_quiesce_ge_standpat ctx0 st0 64 kkBoard 0 5 0 10 (by decide) (by decide)
    (by decide)

end Yukari

namespace Yukari

/-- Every entry of the `PIECE_VALUES` table lies in `[0, 100]`. -/
theorem pieceValue_bounds (p : Option Piece) : 0 ≤ pieceValue p ∧ pieceValue p ≤ 100 := by
  rcases p with _ | p
  · simp [pieceValue]
  · cases p <;> simp [pieceValue]

/-- Every real piece is worth at least a pawn. -/
theorem pieceValue_some_pos (p : Piece) : 1 ≤ pieceValue (some p) := by
  cases p <;> simp [pieceValue]

/-- The swap-off loop keeps its result between the running lower bound and
the initial upper bound: once `-100 ≤ alpha < beta ≤ B` holds it holds for
every later window, and every exit returns an `alpha` or `beta` value. -/
theorem seeLoop_bounds (b : Board) (dest : Square) :
    ∀ (fuel : Nat) (score alpha beta : Int) (attacker : Option Piece)
      (our their moved : Bitlist) (B : Int),
      -100 ≤ alpha → alpha < beta → beta ≤ B →
      -100 ≤ seeLoop b dest fuel score alpha beta attacker our their moved ∧
        seeLoop b dest fuel score alpha beta attacker our their moved ≤ B := by
  intro fuel
  induction fuel with
  | zero =>
    intro score alpha beta attacker our their moved B h1 h2 h3
    simp only [seeLoop]
    omega
  | succ fuel ih =>
    intro score alpha beta attacker our their moved B h1 h2 h3
    simp only [seeLoop]
    rcases hn : nextPiece b dest their our their moved with ⟨_ | ap, our1, their1, moved1⟩
    · simp only
      omega
    · simp only
      split
      · omega
      · rename_i hsb
        rcases hn2 : nextPiece b dest our1 our1 their1 moved1 with
          ⟨_ | ap2, our2, their2, moved2⟩
        · simp only
          constructor <;> omega
        · simp only
          split
          · constructor <;> omega
          · rename_i hsa
            exact ih _ _ _ _ _ _ _ B (by omega) (by omega) (by omega)

/-- The first iteration of the swap-off loop starting from the source's
initial window `alpha = -1000`, `beta = score0`: with `0 ≤ score0` the
result lands in `[-100, score0]`. -/
theorem seeLoop_initial_bounds (b : Board) (dest : Square) (fuel : Nat)
    (score0 : Int) (attacker : Option Piece) (our their moved : Bitlist)
    (h0 : 0 ≤ score0) :
    -100 ≤ seeLoop b dest (fuel + 1) score0 (-1000) score0 attacker our their moved ∧
      seeLoop b dest (fuel + 1) score0 (-1000) score0 attacker our their moved ≤ score0 := by
  simp only [seeLoop]
  rcases hn : nextPiece b dest their our their moved with ⟨_ | ap, our1, their1, moved1⟩
  · simp only
    omega
  · simp only
    have hv := pieceValue_bounds attacker
    split
    · omega
    · rename_i hsb
      rcases hn2 : nextPiece b dest our1 our1 their1 moved1 with
        ⟨_ | ap2, our2, their2, moved2⟩
      · simp only
        constructor <;> omega
      · simp only
        split
        · constructor <;> omega
        · rename_i hsa
          exact seeLoop_bounds b dest fuel _ _ _ _ _ _ _ score0 (by omega) (by omega)
            (by omega)

/-- The full swap-off starting from score `S` with `0 ≤ S ≤ 100 + δ`
yields an absolute value of at most `100 + δ`. -/
theorem see_bounds_core (b : Board) (dest : Square) (S δ : Int) (att : Option Piece)
    (our their moved : Bitlist) (h0 : 0 ≤ S) (hS : S ≤ 100 + δ) (hδ : 0 ≤ δ) :
    |seeLoop b dest 40 S (-1000) S att our their moved| ≤ 100 + δ := by
  rw [show (40 : Nat) = 39 + 1 from rfl]
  have H := seeLoop_initial_bounds b dest 39 S att our their moved h0
  rw [abs_le]
  constructor <;> omega

/-- The promotion delta of a move: the promoted piece's value minus the
pawn's value (zero for non-promotions). -/
def promoDelta (m : Move) : Int :=
  match m.prom with
  | none => 0
  | some p => pieceValue (some p) - 1

/--
C6: on every board, for every move whose origin square is occupied (true
of every legal move), the static exchange evaluation is defined and
bounded: `|see(m)| ≤ 100` when the move is not a promotion, and the bound
rises by the promotion delta (promoted piece's value minus the pawn's)
when it is.
-/
theorem c6_see_bounded (b : Board) (m : Move)
    (h : (b.data.pieceIndex m.src).isSome = true) :
    ∃ s, see b m = some s ∧ |s| ≤ 100 + promoDelta m := by
  obtain ⟨i, hi⟩ := Option.isSome_iff_exists.mp h
  have hb := pieceValue_bounds (b.pieceFromSquare m.dst)
  unfold see
  rw [hi]
  simp only [Option.bind_eq_bind, Option.some_bind]
  rcases hp : m.prom with _ | p
  · simp only [hp]
    refine ⟨_, rfl, ?_⟩
    have hδ0 : promoDelta m = 0 := by simp [promoDelta, hp]
    rw [hδ0]
    refine see_bounds_core b m.dst _ 0 _ _ _ _ ?_ ?_ le_rfl
    · split <;> omega
    · split <;> omega
  · simp only [hp]
    refine ⟨_, rfl, ?_⟩
    have hδp : promoDelta m = pieceValue (some p) - 1 := by simp [promoDelta, hp]
    rw [hδp]
    have hvp := pieceValue_bounds (some p)
    have hvp1 := pieceValue_some_pos p
    have hpw : pieceValue (some Piece.pawn) = 1 := rfl
    rw [hpw]
    refine see_bounds_core b m.dst _ (pieceValue (some p) - 1) _ _ _ _ ?_ ?_ (by omega)
    · split <;> omega
    · split <;> omega

/-- Witness for C6 at a concrete input: the knight capture on the small
test board has SEE −2, within the bound. -/
theorem c6_witness :
    ((boardOfFen "4k3/8/4p3/3p4/8/2N5/8/4K3 w - - 0 1").data.pieceIndex 18).isSome = true ∧
    ∃ s, see (boardOfFen "4k3/8/4p3/3p4/8/2N5/8/4K3 w - - 0 1") ⟨18, 35, .capture, none⟩ = some s ∧
      |s| ≤ 100 + promoDelta ⟨18, 35, .capture, none⟩ := by
  refine ⟨by decide, ?_⟩
  exact c6_see_bounded (boardOfFen "4k3/8/4p3/3p4/8/2N5/8/4K3 w - - 0 1")
    ⟨18, 35, .capture, none⟩ (by decide)

end Yukari

namespace Yukari

/--
C9 counterexample: the claim says that when the null-move search comes
back at or above β the function "returns exactly β".  On the bare-kings
position with window (4, 5) at depth 2 all null-move conditions hold
(not in check, depth ≥ 2, corrected eval 10 ≥ β = 5) and the null-move
search fails high, but `search` returns the fail-soft null-move score 10,
not β = 5 (`search.rs` line 313 is `return score;`, not `return
upper_bound;`).
-/
theorem c9_nullmove_returns_score_not_beta :
    kkBoard.inCheck = false ∧
    (probeTT ctx0 st0 kkBoard 2 0 4 5).1 = none ∧
    evalWithCorrhist st0 kkBoard (ctx0.evalFn kkBoard kkBoard.side) = 10 ∧
    (search ctx0 16 st0 kkBoard 2 4 5 0 []).map Prod.fst = some 10 ∧
    (10 : Int) ≠ 5 := by
  exact ⟨by decide, by decide, by decide, by decide, by decide⟩

/--
C9 (amended): when the side to move is not in check, the (post-reduction)
depth is ≥ 2, the corrected static eval is ≥ β, the TT probe produced no
score and neither static pruning fired, `search` makes a null
(side-flip-only) move, searches it at a depth reduced by 3 or 4 plus the
eval-delta bonus `max((eval − β)/200, 0)` with the current position hash
pushed onto the repetition keystack for that child search, and if the
negated child score is ≥ β it returns that score (which is ≥ β but not
necessarily equal to it), together with the child's updated search state.
-/
theorem c9_nullmove_amended (ctx : SearchCtx) (fuel : Nat) (st st1 : SearchState)
    (b : Board) (depth0 d1 lower upper evalInt red cs : Int) (ply : Nat)
    (ks : List Nat) (tm : Option Move)
    (hply : ply ≠ 63)
    (hchk : b.inCheck = false)
    (hdpos : 0 < depth0)
    (hprobe : probeTT ctx st b depth0 ply lower upper = (none, tm))
    (hd1 : d1 = if (lower != upper - 1 && tm == none && decide (depth0 ≥ 3)) = true
      then depth0 - 1 else depth0)
    (heval : evalInt = evalWithCorrhist st b (ctx.evalFn b b.side))
    (hrfp : ¬(d1 ≤ 3 ∧
      evalInt - (ctx.params.rfpMarginBase + ctx.params.rfpMarginMul * d1) ≥ upper))
    (hraz : ¬(d1 ≤ 3 ∧ |lower| < 2000 ∧
      evalInt + ctx.params.razorMarginMul * d1 ≤ lower))
    (hd2 : 2 ≤ d1)
    (hev : upper ≤ evalInt)
    (hred : red = (if d1 > 6 then (4 : Int) else 3) + max (Int.tdiv (evalInt - upper) 200) 0)
    (hchild : search ctx fuel st b.makeNull (d1 - 1 - red) (-upper) (-upper + 1)
      (ply + 1) (ks ++ [b.hash]) = some (cs, st1))
    (hcut : upper ≤ -cs) :
    search ctx (fuel + 1) st b depth0 lower upper ply ks = some (-cs, st1) := by
  subst heval
  subst hred
  simp only [search]
  rw [if_neg (by simpa using hply)]
  rw [hchk]
  rw [if_neg Bool.false_ne_true]
  rw [if_neg (show ¬depth0 ≤ 0 by omega)]
  rw [hprobe]
  dsimp only
  rw [← hd1]
  simp only [searchBody]
  rw [hchk]
  rw [if_neg (fun hcon => hrfp (by
    simp only [Bool.not_false, Bool.true_and, Bool.and_eq_true, decide_eq_true_eq] at hcon
    exact ⟨hcon.1, hcon.2⟩))]
  rw [if_neg (fun hcon => hraz (by
    simp only [Bool.not_false, Bool.true_and, Bool.and_eq_true, decide_eq_true_eq] at hcon
    exact ⟨hcon.1.1, hcon.1.2, hcon.2⟩))]
  rw [if_pos (by
    simp only [Bool.not_false, Bool.true_and, Bool.and_eq_true, decide_eq_true_eq]
    exact ⟨hd2, hev⟩)]
  rw [hchild]
  dsimp only
  rw [if_pos (show -cs ≥ upper from hcut)]

end Yukari

namespace Yukari

/-- Witness for C9 at a concrete input: the bare-kings run of the
counterexample, with every hypothesis discharged numerically. -/
theorem c9_witness : search ctx0 16 st0 kkBoard 2 4 5 0 [] = some (10, st0) := by
  have h := c9_nullmove_amended ctx0 15 st0 st0 kkBoard 2 2 4 5 10 3 (-10) 0 [] none
    (by decide) (by decide) (by decide) (by decide) (by decide) (by decide)
    (by decide) (by decide) (by decide) (by decide) (by decide) (by rfl) (by decide)
  simpa using h

end Yukari

namespace Yukari

/-- `ordThen` is `gt` iff its first comparison is, or ties and the second
is. -/
theorem ordThen_eq_gt (c1 c2 : Ordering) :
    ordThen c1 c2 = .gt ↔ c1 = .gt ∨ (c1 = .eq ∧ c2 = .gt) := by
  cases c1 <;> simp [ordThen]

/-- Sort key of the non-TT comparator: capture class, then victim value
descending (negated), then attacker value for captures / negated history
for quiets. -/
def restKey (b : Board) (hist : Nat → Nat → Int) (m : Move) : Nat × Int × Int :=
  ((if m.isCapture then 0 else 1),
   (if m.isCapture then -(optPieceOrd (b.pieceFromSquare m.dst) : Int)
    else -(hist m.src m.dst)),
   (if m.isCapture then (optPieceOrd (b.pieceFromSquare m.src) : Int) else 0))

/-- Lexicographic strict order on the three-component key. -/
def key3Lt (p q : Nat × Int × Int) : Prop :=
  p.1 < q.1 ∨ (p.1 = q.1 ∧ (p.2.1 < q.2.1 ∨ (p.2.1 = q.2.1 ∧ p.2.2 < q.2.2)))

/-- Full sort key: TT-move class first, then `restKey`. -/
def moveKey (b : Board) (hist : Nat → Nat → Int) (ttm : Option Move) (m : Move) :
    Nat × Nat × Int × Int :=
  ((match ttm with | some t => if m = t then 0 else 1 | none => 1), restKey b hist m)

/-- Lexicographic strict order on the four-component key. -/
def key4Lt (p q : Nat × Nat × Int × Int) : Prop :=
  p.1 < q.1 ∨ (p.1 = q.1 ∧ key3Lt p.2 q.2)

/-- The non-TT comparator answers `gt` exactly when the second move's key
is lexicographically below the first's. -/
theorem moveOrderRest_gt_iff (b : Board) (hist : Nat → Nat → Int) (x y : Move) :
    moveOrderRest b hist x y = .gt ↔ key3Lt (restKey b hist y) (restKey b hist x) := by
  unfold moveOrderRest restKey key3Lt
  cases hx : x.isCapture <;> cases hy : y.isCapture <;>
    simp only [hx, hy, Bool.false_eq_true, if_true, if_false, ite_true, ite_false]
  · rw [compare_gt_iff_gt]
    constructor
    · intro h
      refine Or.inr ⟨by trivial, ?_⟩
      omega
    · rintro (h | ⟨-, h⟩) <;> omega
  · constructor
    · intro _
      exact Or.inl (by first | trivial | omega)
    · intro _
      trivial
  · constructor
    · intro h
      first
      | exact h.elim
      | simp at h
    · rintro (h | ⟨h, -⟩) <;> first | exact h.elim | omega
  · rw [ordThen_eq_gt]
    simp only [compare_gt_iff_gt, compare_eq_iff_eq, gt_iff_lt]
    constructor
    · rintro (h | ⟨h1, h2⟩) <;> exact Or.inr ⟨by trivial, by omega⟩
    · rintro (h | ⟨-, h | ⟨h1, h2⟩⟩)
      · exact absurd h (by omega)
      · exact Or.inl (by omega)
      · exact Or.inr ⟨by omega, by omega⟩

/-- The full comparator answers `gt` exactly when the second move's key is
lexicographically below the first's. -/
theorem moveOrderCmp_gt_iff (b : Board) (hist : Nat → Nat → Int) (ttm : Option Move)
    (x y : Move) :
    moveOrderCmp b hist ttm x y = .gt ↔
      key4Lt (moveKey b hist ttm y) (moveKey b hist ttm x) := by
  unfold moveOrderCmp moveKey key4Lt
  rcases ttm with _ | t
  · dsimp only
    rw [moveOrderRest_gt_iff]
    constructor
    · intro h
      exact Or.inr ⟨by trivial, h⟩
    · rintro (h | ⟨-, h⟩)
      · first | exact h.elim | omega
      · exact h
  · dsimp only
    by_cases hx : x = t
    · rw [if_pos hx, if_pos hx]
      by_cases hy : y = t
      · rw [if_pos hy]
        have hk : restKey b hist y = restKey b hist x := by rw [hx, hy]
        rw [hk]
        constructor
        · intro h
          first
          | exact h.elim
          | simp at h
        · rintro (h | ⟨-, h⟩)
          · first | exact h.elim | omega
          · unfold key3Lt at h
            omega
      · rw [if_neg hy]
        constructor
        · intro h
          first
          | exact h.elim
          | simp at h
        · rintro (h | ⟨h, -⟩) <;> first | exact h.elim | omega
    · rw [if_neg hx, if_neg hx]
      by_cases hy : y = t
      · rw [if_pos hy, if_pos hy]
        constructor
        · intro _
          exact Or.inl (by first | trivial | omega)
        · intro _
          rfl
      · rw [if_neg hy, if_neg hy, moveOrderRest_gt_iff]
        constructor
        · intro h
          exact Or.inr ⟨by trivial, h⟩
        · rintro (h | ⟨-, h⟩)
          · first | exact h.elim | omega
          · exact h

/-- The lexicographic key order is asymmetric. -/
theorem key4Lt_asymm {p q : Nat × Nat × Int × Int} (h : key4Lt p q) : ¬ key4Lt q p := by
  obtain ⟨p1, p2, p3, p4⟩ := p
  obtain ⟨q1, q2, q3, q4⟩ := q
  unfold key4Lt key3Lt at h ⊢
  dsimp only at h ⊢
  omega

/-- Non-strict comparison of keys composes. -/
theorem key4Lt_notLt_trans {p q r : Nat × Nat × Int × Int}
    (h1 : ¬ key4Lt p q) (h2 : ¬ key4Lt q r) : ¬ key4Lt p r := by
  obtain ⟨p1, p2, p3, p4⟩ := p
  obtain ⟨q1, q2, q3, q4⟩ := q
  obtain ⟨r1, r2, r3, r4⟩ := r
  unfold key4Lt key3Lt at h1 h2 ⊢
  dsimp only at h1 h2 ⊢
  omega

/-- The comparator relation is total. -/
theorem moveOrderLe_total (b : Board) (hist : Nat → Nat → Int) (ttm : Option Move) :
    ∀ x y, moveOrderLe b hist ttm x y ∨ moveOrderLe b hist ttm y x := by
  intro x y
  by_cases h : moveOrderCmp b hist ttm x y = .gt
  · right
    intro hc
    rw [moveOrderCmp_gt_iff] at h hc
    exact key4Lt_asymm h hc
  · exact Or.inl h

/-- The comparator relation is transitive. -/
theorem moveOrderLe_trans (b : Board) (hist : Nat → Nat → Int) (ttm : Option Move) :
    ∀ x y z, moveOrderLe b hist ttm x y → moveOrderLe b hist ttm y z →
      moveOrderLe b hist ttm x z := by
  intro x y z h1 h2 hc
  rw [moveOrderCmp_gt_iff] at hc
  exact key4Lt_notLt_trans (fun hk => h2 (by rw [moveOrderCmp_gt_iff]; exact hk))
    (fun hk => h1 (by rw [moveOrderCmp_gt_iff]; exact hk)) hc

end Yukari

namespace Yukari

/-- Board for the ordering counterexample: white knight c3 and king e1,
black pawns d5 and e6, black king e8, white to move. -/
def b8Board : Board := boardOfFen "4k3/8/4p3/3p4/8/2N5/8/4K3 w - - 0 1"

/-- A history table scoring the quiet move c3-b1 at 100 and everything
else at 0. -/
def hist8 : Nat → Nat → Int := fun a c => if a = 18 ∧ c = 1 then 100 else 0

/-- C8 counterexample: the capture Nc3xd5 has SEE −2 (the knight is lost
for a pawn, e6xd5 recaptures), yet the sort of the generated moves places
it at index 0, before the quiet Nc3-b1 of history 100. The comparator
orders every capture before every quiet move and never consults SEE, so
"losing captures last" and "a capture with negative SEE is never ordered
before a quiet move of higher history" are both false. -/
theorem c8_losing_capture_sorts_before_quiet :
    see b8Board ⟨18, 35, .capture, none⟩ = some (-2) ∧
    hist8 18 1 = 100 ∧ hist8 18 35 = 0 ∧
    (sortMoves b8Board hist8 none (generate b8Board)).indexOf
      ⟨18, 35, .capture, none⟩ = 0 ∧
    (sortMoves b8Board hist8 none (generate b8Board)).indexOf
      ⟨18, 1, .normal, none⟩ = 1 := by
  refine ⟨by decide, by decide, by decide, by decide, by decide⟩

/-- C8, amended: the move list of `Search::search` is sorted by the
comparator of `search.rs` lines 336–359, and that comparator places the
TT move first, then ALL captures (by most valuable victim, then least
valuable attacker), then quiet moves by descending history. SEE plays no
role in the comparator: captures are never ordered after quiets, so there
is no "losing captures last" class. -/
theorem c8_move_ordering (b : Board) (hist : Nat → Nat → Int) (ttm : Option Move)
    (moves : List Move) :
    List.Sorted (moveOrderLe b hist ttm) (sortMoves b hist ttm moves) ∧
    (∀ t x y, ttm = some t → x = t →
      moveOrderCmp b hist ttm x y = .lt) ∧
    (∀ t x y, ttm = some t → x ≠ t → y = t →
      moveOrderCmp b hist ttm x y = .gt) ∧
    (∀ t x y, ttm = some t → x ≠ t → y ≠ t →
      moveOrderCmp b hist ttm x y = moveOrderRest b hist x y) ∧
    (∀ x y, moveOrderCmp b hist none x y = moveOrderRest b hist x y) ∧
    (∀ x y, x.isCapture = true → y.isCapture = false →
      moveOrderRest b hist x y = .lt) ∧
    (∀ x y, x.isCapture = false → y.isCapture = false →
      moveOrderRest b hist x y = compare (hist y.src y.dst) (hist x.src x.dst)) ∧
    (∀ x y, x.isCapture = true → y.isCapture = true →
      moveOrderRest b hist x y =
        ordThen
          (compare (optPieceOrd (b.pieceFromSquare y.dst))
            (optPieceOrd (b.pieceFromSquare x.dst)))
          (compare (optPieceOrd (b.pieceFromSquare x.src))
            (optPieceOrd (b.pieceFromSquare y.src)))) := by
  refine ⟨?_, ?_, ?_, ?_, ?_, ?_, ?_, ?_⟩
  · haveI : IsTotal Move (moveOrderLe b hist ttm) := ⟨moveOrderLe_total b hist ttm⟩
    haveI : IsTrans Move (moveOrderLe b hist ttm) := ⟨moveOrderLe_trans b hist ttm⟩
    exact List.sorted_insertionSort _ _
  · rintro t x y rfl rfl
    simp [moveOrderCmp]
  · rintro t x y rfl hx rfl
    simp [moveOrderCmp, hx]
  · rintro t x y rfl hx hy
    simp [moveOrderCmp, hx, hy]
  · intro x y
    rfl
  · intro x y hx hy
    simp [moveOrderRest, hx, hy]
  · intro x y hx hy
    simp [moveOrderRest, hx, hy]
  · intro x y hx hy
    simp [moveOrderRest, hx, hy]

/-- Witness for C8 at concrete inputs on `b8Board`: the sortedness of the
generated list with Nxd5 as TT move, and each comparator clause
instantiated at concrete moves with its hypotheses discharged. -/
theorem c8_witness :
    List.Sorted (moveOrderLe b8Board hist8 (some ⟨18, 35, .capture, none⟩))
      (sortMoves b8Board hist8 (some ⟨18, 35, .capture, none⟩) (generate b8Board)) ∧
    moveOrderCmp b8Board hist8 (some ⟨18, 35, .capture, none⟩)
      ⟨18, 35, .capture, none⟩ ⟨18, 1, .normal, none⟩ = .lt ∧
    moveOrderCmp b8Board hist8 (some ⟨18, 35, .capture, none⟩)
      ⟨18, 1, .normal, none⟩ ⟨18, 35, .capture, none⟩ = .gt ∧
    moveOrderCmp b8Board hist8 (some ⟨18, 35, .capture, none⟩)
      ⟨18, 1, .normal, none⟩ ⟨18, 3, .normal, none⟩ =
      moveOrderRest b8Board hist8 ⟨18, 1, .normal, none⟩ ⟨18, 3, .normal, none⟩ ∧
    moveOrderCmp b8Board hist8 none
      ⟨18, 1, .normal, none⟩ ⟨18, 3, .normal, none⟩ =
      moveOrderRest b8Board hist8 ⟨18, 1, .normal, none⟩ ⟨18, 3, .normal, none⟩ ∧
    moveOrderRest b8Board hist8 ⟨18, 35, .capture, none⟩ ⟨18, 1, .normal, none⟩ = .lt ∧
    moveOrderRest b8Board hist8 ⟨18, 1, .normal, none⟩ ⟨18, 3, .normal, none⟩ =
      compare (hist8 18 3) (hist8 18 1) ∧
    moveOrderRest b8Board hist8 ⟨18, 35, .capture, none⟩ ⟨3, 35, .capture, none⟩ =
      ordThen
        (compare (optPieceOrd (b8Board.pieceFromSquare 35))
          (optPieceOrd (b8Board.pieceFromSquare 35)))
        (compare (optPieceOrd (b8Board.pieceFromSquare 18))
          (optPieceOrd (b8Board.pieceFromSquare 3))) := by
  obtain ⟨h1, h2, h3, h4, h5, h6, h7, h8⟩ :=
    c8_move_ordering b8Board hist8 (some ⟨18, 35, .capture, none⟩) (generate b8Board)
  exact ⟨h1,
    h2 _ _ ⟨18, 1, .normal, none⟩ rfl rfl,
    h3 _ ⟨18, 1, .normal, none⟩ _ rfl (by decide) rfl,
    h4 _ ⟨18, 1, .normal, none⟩ ⟨18, 3, .normal, none⟩ rfl (by decide) (by decide),
    h5 _ _,
    h6 _ _ (by decide) (by decide),
    h7 _ _ (by decide) (by decide),
    h8 _ _ (by decide) (by decide)⟩

end Yukari

namespace Yukari

/-- `push` only ever appends. -/
theorem pushOpt_eq_append (v : List Move) (o : Option Move) :
    pushOpt v o = v ++ pushOpt [] o := by
  cases o <;> simp [pushOpt]

/-- A fold whose body only appends to its accumulator splits off the
initial accumulator. -/
theorem foldl_init_append {β : Type} (f : List Move → β → List Move)
    (hf : ∀ v x, f v x = v ++ f [] x) :
    ∀ (l : List β) (v : List Move), l.foldl f v = v ++ l.foldl f [] := by
  intro l
  induction l with
  | nil =>
    intro v
    simp
  | cons x xs ih =>
    intro v
    rw [List.foldl_cons, List.foldl_cons, ih (f v x), ih (f [] x), hf v x,
      List.append_assoc]

/-- Anything a guarded emission fold adds to the accumulator passed the
guard. -/
theorem mem_foldl_skip {β : Type} (cond : β → Bool) (mk : β → Option Move)
    (P : Move → Prop)
    (hmk : ∀ x m, cond x = false → mk x = some m → P m) :
    ∀ (l : List β) (v : List Move) (m : Move),
      m ∈ l.foldl (fun v x => if cond x then v else pushOpt v (mk x)) v →
      m ∈ v ∨ P m := by
  intro l
  induction l with
  | nil =>
    intro v m hm
    exact Or.inl hm
  | cons x xs ih =>
    intro v m hm
    rw [List.foldl_cons] at hm
    rcases ih _ m hm with h | h
    · by_cases hc : cond x = true
      · rw [if_pos hc] at h
        exact Or.inl h
      · rw [if_neg hc] at h
        have hc2 : cond x = false := by simpa using hc
        cases ho : mk x with
        | none =>
          rw [ho] at h
          exact Or.inl h
        | some m2 =>
          rw [ho] at h
          rcases List.mem_append.mp h with h2 | h2
          · exact Or.inl h2
          · have hm2 : m = m2 := by simpa using h2
            subst hm2
            exact Or.inr (hmk x m hc2 ho)
    · exact Or.inr h

/-- `try_push_move` emits exactly the move it was given (or nothing). -/
theorem tryPushMove_eq_some (b : Board) (pin : PinInfo) (src dst : Square)
    (kind : MoveType) (prom : Option Piece) (m : Move)
    (h : tryPushMove b pin src dst kind prom = some m) :
    m = ⟨src, dst, kind, prom⟩ := by
  unfold tryPushMove at h
  dsimp only at h
  split at h
  · simp_all
  · split at h
    · simp_all
    · split at h
      · simp_all
      · split at h
        · simp_all
        · simp_all

/-- The pawn loop only appends. -/
theorem incPawnPhase_append (b : Board) (pin : PinInfo) (dest : Square)
    (v : List Move) :
    incPawnPhase b pin dest v = v ++ incPawnPhase b pin dest [] := by
  unfold incPawnPhase
  refine foldl_init_append _ (fun w c => ?_) _ v
  dsimp only
  split
  · exact foldl_init_append
      (fun u p => pushOpt u
        (tryPushMove b pin (b.squareOfPiece c) dest .capturePromotion (some p)))
      (fun u p => pushOpt_eq_append u _) promotionPieces w
  · exact pushOpt_eq_append w _

/-- The knight/bishop loop only appends. -/
theorem incNBPhase_append (b : Board) (pin : PinInfo) (dest : Square)
    (vt : Piece) (v : List Move) :
    incNBPhase b pin dest vt v = v ++ incNBPhase b pin dest vt [] := by
  unfold incNBPhase
  refine foldl_init_append _ (fun w c => ?_) _ v
  dsimp only
  split
  · simp
  · exact pushOpt_eq_append w _

/-- The rook loop only appends. -/
theorem incRookPhase_append (b : Board) (pin : PinInfo) (dest : Square)
    (vt : Piece) (v : List Move) :
    incRookPhase b pin dest vt v = v ++ incRookPhase b pin dest vt [] := by
  unfold incRookPhase
  refine foldl_init_append _ (fun w c => ?_) _ v
  dsimp only
  split
  · simp
  · exact pushOpt_eq_append w _

/-- The queen loop only appends. -/
theorem incQueenPhase_append (b : Board) (pin : PinInfo) (dest : Square)
    (vt : Piece) (v : List Move) :
    incQueenPhase b pin dest vt v = v ++ incQueenPhase b pin dest vt [] := by
  unfold incQueenPhase
  refine foldl_init_append _ (fun w c => ?_) _ v
  dsimp only
  split
  · simp
  · exact pushOpt_eq_append w _

/-- The king loop only appends. -/
theorem incKingPhase_append (b : Board) (pin : PinInfo) (dest : Square)
    (v : List Move) :
    incKingPhase b pin dest v = v ++ incKingPhase b pin dest [] := by
  unfold incKingPhase
  refine foldl_init_append _ (fun w c => ?_) _ v
  dsimp only
  split
  · simp
  · exact pushOpt_eq_append w _

/-- `find_attackers` only appends. -/
theorem findAttackersInc_append (b : Board) (pin : PinInfo) (dest : Square)
    (vt : Piece) (v : List Move) :
    findAttackersInc b pin dest vt v = v ++ findAttackersInc b pin dest vt [] := by
  unfold findAttackersInc
  conv_lhs => rw [incPawnPhase_append, incNBPhase_append, incRookPhase_append,
    incQueenPhase_append, incKingPhase_append]
  conv_rhs => rw [incNBPhase_append, incRookPhase_append,
    incQueenPhase_append, incKingPhase_append]
  simp [List.append_assoc]

/-- `find_attackers` decomposes into the five attacker loops in ascending
piece-value order: pawns, knights/bishops, rooks, queens, king. -/
theorem findAttackersInc_decomp (b : Board) (pin : PinInfo) (dest : Square)
    (vt : Piece) :
    findAttackersInc b pin dest vt [] =
      incPawnPhase b pin dest [] ++ incNBPhase b pin dest vt [] ++
      incRookPhase b pin dest vt [] ++ incQueenPhase b pin dest vt [] ++
      incKingPhase b pin dest [] := by
  unfold findAttackersInc
  conv_lhs => rw [incNBPhase_append, incRookPhase_append,
    incQueenPhase_append, incKingPhase_append]

/-- One victim class of `generate_captures_incremental`: all emissions of
`find_attackers` over the victims in a mask. -/
def incVictimSeg (b : Board) (pin : PinInfo) (vt : Piece) (mask : Nat) : List Move :=
  (Bitlist.toList mask).foldl
    (fun v vi => findAttackersInc b pin (b.squareOfPiece vi) vt v) []

/-- A victim-class fold splits off its accumulator. -/
theorem incVictimFold_append (b : Board) (pin : PinInfo) (vt : Piece) (mask : Nat)
    (v : List Move) :
    (Bitlist.toList mask).foldl
      (fun v vi => findAttackersInc b pin (b.squareOfPiece vi) vt v) v =
      v ++ incVictimSeg b pin vt mask := by
  unfold incVictimSeg
  exact foldl_init_append
    (fun v vi => findAttackersInc b pin (b.squareOfPiece vi) vt v)
    (fun w vi => findAttackersInc_append b pin (b.squareOfPiece vi) vt w)
    (Bitlist.toList mask) v

/-- Every knight/bishop capture emitted for a victim class below bishop
passed the full-SEE test. -/
theorem incNBPhase_see (b : Board) (pin : PinInfo) (dest : Square) (vt : Piece)
    (m : Move) (hvt : Piece.lt vt .bishop = true)
    (hm : m ∈ incNBPhase b pin dest vt []) : seeLt0 b m = false := by
  unfold incNBPhase at hm
  have hmk : ∀ x m, (Piece.lt vt .bishop &&
        seeLt0 b ⟨b.squareOfPiece x, dest, .capture, none⟩) = false →
      tryPushMove b pin (b.squareOfPiece x) dest .capture none = some m →
      seeLt0 b m = false := by
    intro x m hc ho
    rw [tryPushMove_eq_some b pin _ dest .capture none m ho]
    rw [hvt, Bool.true_and] at hc
    exact hc
  rcases mem_foldl_skip
      (fun c => Piece.lt vt .bishop &&
        seeLt0 b ⟨b.squareOfPiece c, dest, .capture, none⟩)
      (fun c => tryPushMove b pin (b.squareOfPiece c) dest .capture none)
      (fun m => seeLt0 b m = false) hmk _ [] m hm with h | h
  · exact absurd h (List.not_mem_nil m)
  · exact h

/-- Every rook capture emitted for a victim class below rook passed the
full-SEE test. -/
theorem incRookPhase_see (b : Board) (pin : PinInfo) (dest : Square) (vt : Piece)
    (m : Move) (hvt : Piece.lt vt .rook = true)
    (hm : m ∈ incRookPhase b pin dest vt []) : seeLt0 b m = false := by
  unfold incRookPhase at hm
  have hmk : ∀ x m, (Piece.lt vt .rook &&
        seeLt0 b ⟨b.squareOfPiece x, dest, .capture, none⟩) = false →
      tryPushMove b pin (b.squareOfPiece x) dest .capture none = some m →
      seeLt0 b m = false := by
    intro x m hc ho
    rw [tryPushMove_eq_some b pin _ dest .capture none m ho]
    rw [hvt, Bool.true_and] at hc
    exact hc
  rcases mem_foldl_skip
      (fun c => Piece.lt vt .rook &&
        seeLt0 b ⟨b.squareOfPiece c, dest, .capture, none⟩)
      (fun c => tryPushMove b pin (b.squareOfPiece c) dest .capture none)
      (fun m => seeLt0 b m = false) hmk _ [] m hm with h | h
  · exact absurd h (List.not_mem_nil m)
  · exact h

/-- Every queen capture emitted for a victim class below queen passed the
full-SEE test. -/
theorem incQueenPhase_see (b : Board) (pin : PinInfo) (dest : Square) (vt : Piece)
    (m : Move) (hvt : Piece.lt vt .queen = true)
    (hm : m ∈ incQueenPhase b pin dest vt []) : seeLt0 b m = false := by
  unfold incQueenPhase at hm
  have hmk : ∀ x m, (Piece.lt vt .queen &&
        seeLt0 b ⟨b.squareOfPiece x, dest, .capture, none⟩) = false →
      tryPushMove b pin (b.squareOfPiece x) dest .capture none = some m →
      seeLt0 b m = false := by
    intro x m hc ho
    rw [tryPushMove_eq_some b pin _ dest .capture none m ho]
    rw [hvt, Bool.true_and] at hc
    exact hc
  rcases mem_foldl_skip
      (fun c => Piece.lt vt .queen &&
        seeLt0 b ⟨b.squareOfPiece c, dest, .capture, none⟩)
      (fun c => tryPushMove b pin (b.squareOfPiece c) dest .capture none)
      (fun m => seeLt0 b m = false) hmk _ [] m hm with h | h
  · exact absurd h (List.not_mem_nil m)
  · exact h

end Yukari

namespace Yukari

/-- Counterexample board for C7: white Rd1, Nc3, Ke1; black Nd5, Be6, Kg8;
white to move. -/
def board7 : Board := boardOfFen "6k1/8/4b3/3n4/8/2N5/8/3RK3 w - - 0 1"

/-- Witness board for C7: white Nc4, Rg2, Qh1, Ke1; black pawn b2, Ng4,
Rh5, Kg8; white to move.  Every attacker loop of the incremental
generator emits a capture here. -/
def b7W : Board := boardOfFen "6k1/8/8/7r/2N3n1/8/1p4R1/4K2Q w - - 0 1"

/-- C7 counterexample: on `board7` the rook capture Rd1xd5 takes a
lower-value victim (knight, value 3) with a higher-value attacker (rook,
value 5) while a cheaper enemy recapture exists (the bishop on e6 defends
d5), yet the capture is emitted by `generate_captures_incremental`: the
bad-capture skip runs full `static_exchange_evaluation` (+1 here, the
knight is insufficiently defended), not the mask heuristic of the claim,
whose criterion would have skipped this capture. -/
theorem c7_skip_uses_full_see :
    (⟨3, 35, .capture, none⟩ : Move) ∈ incrementalCaptures board7 ∧
    board7.pieceFromSquare 3 = some .rook ∧
    board7.pieceFromSquare 35 = some .knight ∧
    (board7.data.attacksTo 35 board7.side.not &&& board7.data.piecemask.bishops) ≠ 0 ∧
    see board7 ⟨3, 35, .capture, none⟩ = some 1 := by
  refine ⟨by decide, by decide, by decide, by decide, by decide⟩

/-- C7, amended: when the side to move is not in check,
`generate_captures_incremental` iterates victims in the order queens,
rooks, knights/bishops, pawns; for each victim square `find_attackers`
considers attackers in ascending piece value (pawns, knights/bishops,
rooks, queens, king); and a capture by a knight/bishop, rook or queen of
a victim of strictly lower class is emitted only when its FULL static
exchange evaluation is not negative - the `minor_mask`/`rook_mask`/
`queen_mask` variables of the source are built but never read, so no mask
heuristic is involved. -/
theorem c7_incremental_capture_order (b : Board) (ks : Square)
    (hks : b.data.kingSquare b.side = some ks)
    (hchk : Bitlist.countOnes (b.data.attacksTo ks b.side.not) = 0) :
    incrementalCaptures b =
      incVictimSeg b (PinInfo.discover b) .queen
        (b.data.piecesOfColour b.side.not &&& b.data.piecemask.queens) ++
      incVictimSeg b (PinInfo.discover b) .rook
        (b.data.piecesOfColour b.side.not &&& b.data.piecemask.rooks) ++
      incVictimSeg b (PinInfo.discover b) .bishop
        (b.data.piecesOfColour b.side.not &&&
          (b.data.piecemask.knights ||| b.data.piecemask.bishops)) ++
      incVictimSeg b (PinInfo.discover b) .pawn
        (b.data.piecesOfColour b.side.not &&& b.data.piecemask.pawns) ∧
    (∀ pin dest vt, findAttackersInc b pin dest vt [] =
      incPawnPhase b pin dest [] ++ incNBPhase b pin dest vt [] ++
      incRookPhase b pin dest vt [] ++ incQueenPhase b pin dest vt [] ++
      incKingPhase b pin dest []) ∧
    (∀ pin dest vt m, Piece.lt vt .bishop = true →
      m ∈ incNBPhase b pin dest vt [] → seeLt0 b m = false) ∧
    (∀ pin dest vt m, Piece.lt vt .rook = true →
      m ∈ incRookPhase b pin dest vt [] → seeLt0 b m = false) ∧
    (∀ pin dest vt m, Piece.lt vt .queen = true →
      m ∈ incQueenPhase b pin dest vt [] → seeLt0 b m = false) := by
  refine ⟨?_, ?_, ?_, ?_, ?_⟩
  · unfold incrementalCaptures
    rw [hks]
    dsimp only
    rw [if_neg (by simp [hchk])]
    rw [incVictimFold_append, incVictimFold_append, incVictimFold_append,
      incVictimFold_append]
    simp [List.append_assoc]
  · intro pin dest vt
    exact findAttackersInc_decomp b pin dest vt
  · intro pin dest vt m hvt hm
    exact incNBPhase_see b pin dest vt m hvt hm
  · intro pin dest vt m hvt hm
    exact incRookPhase_see b pin dest vt m hvt hm
  · intro pin dest vt m hvt hm
    exact incQueenPhase_see b pin dest vt m hvt hm

/-- Witness for C7 on `b7W` (its king sits on e1 = square 4 and is not in
check): the knight capture Nc4xb2, the rook capture Rg2xg4 and the queen
capture Qh1xh5 are each emitted by their attacker loop for a lower-class
victim, so each passed the full-SEE test. -/
theorem c7_witness :
    seeLt0 b7W ⟨26, 9, .capture, none⟩ = false ∧
    seeLt0 b7W ⟨14, 30, .capture, none⟩ = false ∧
    seeLt0 b7W ⟨7, 39, .capture, none⟩ = false := by
  obtain ⟨h1, h2, h3, h4, h5⟩ :=
    c7_incremental_capture_order b7W 4 (by decide) (by decide)
  exact ⟨h3 (PinInfo.discover b7W) 9 .pawn ⟨26, 9, .capture, none⟩
      (by decide) (by decide),
    h4 (PinInfo.discover b7W) 30 .bishop ⟨14, 30, .capture, none⟩
      (by decide) (by decide),
    h5 (PinInfo.discover b7W) 39 .rook ⟨7, 39, .capture, none⟩
      (by decide) (by decide)⟩

end Yukari

namespace Yukari

/-!  ## Accumulator invariant: helper lemmas -/

/-- Reading the cell just written. -/
theorem getD_setD_self {α : Type} (a : Array α) (i : Nat) (v dflt : α)
    (h : i < a.size) : (a.setD i v).getD i dflt = v := by
  simp [Array.setD, Array.getD, h]

/-- Reading another cell. -/
theorem getD_setD_ne {α : Type} (a : Array α) (i j : Nat) (v dflt : α)
    (h : j ≠ i) : (a.setD i v).getD j dflt = a.getD j dflt := by
  by_cases hi : i < a.size <;> by_cases hj : j < a.size <;>
    simp [Array.setD, Array.getD, hi, hj, Array.size_set, Array.getElem_set, h,
      Ne.symm h]

/-- Writing keeps the size. -/
theorem size_setD {α : Type} (a : Array α) (i : Nat) (v : α) :
    (a.setD i v).size = a.size := by
  unfold Array.setD
  split <;> simp [Array.size_set]

/-- Bits at or above 32 of a 32-bit value are clear. -/
theorem testBit_high {x : Nat} (hx : x < 2 ^ 32) {m : Nat} (hm : 32 ≤ m) :
    x.testBit m = false :=
  Nat.testBit_lt_two_pow
    (lt_of_lt_of_le hx (Nat.pow_le_pow_right (by norm_num) hm))

/-- The singleton bitlist has exactly one bit. -/
theorem testBit_fromPiece (i m : Nat) :
    (Bitlist.fromPiece i).testBit m = decide (i = m) := by
  unfold Bitlist.fromPiece
  rw [Nat.shiftLeft_eq, one_mul, Nat.testBit_two_pow]

/-- Inversion flips every bit below 32. -/
theorem testBit_invert {b : Nat} {i : Nat} (hi : i < 32) :
    (Bitlist.invert b).testBit i = !b.testBit i := by
  unfold Bitlist.invert
  rw [Nat.testBit_xor]
  have hmask : (0xFFFFFFFF : Nat).testBit i = true := by
    have h32 : (0xFFFFFFFF : Nat) = 2 ^ 32 - 1 := by norm_num
    rw [h32, Nat.testBit_two_pow_sub_one]
    simpa using hi
  rw [hmask]
  cases b.testBit i <;> rfl

/-- Clearing one index leaves the other bits of a 32-bit mask. -/
theorem testBit_clear_ne {i : Nat} (hi : i < 32) {m : Nat} (hne : m ≠ i)
    {x : Nat} (hx : x < 2 ^ 32) :
    (x &&& Bitlist.invert (Bitlist.fromPiece i)).testBit m = x.testBit m := by
  by_cases hm : m < 32
  · rw [Nat.testBit_and, testBit_invert hm, testBit_fromPiece]
    simp [Ne.symm hne]
  · rw [Nat.testBit_and, testBit_high hx (by omega)]
    simp

/-- Clearing one index clears its bit. -/
theorem testBit_clear_self {i : Nat} (hi : i < 32) (x : Nat) :
    (x &&& Bitlist.invert (Bitlist.fromPiece i)).testBit i = false := by
  rw [Nat.testBit_and, testBit_invert hi, testBit_fromPiece]
  simp

/-- A successful `peek` returns a member below 32. -/
theorem peek_spec {b : Bitlist} {i : Nat} (h : Bitlist.peek b = some i) :
    i < 32 ∧ b.testBit i = true := by
  unfold Bitlist.peek at h
  have hmem : i ∈ Bitlist.toList b := by
    cases hl : Bitlist.toList b with
    | nil => rw [hl] at h; cases h
    | cons a l =>
      rw [hl] at h
      simp only [List.head?, Option.some.injEq] at h
      subst h
      exact List.mem_cons_self _ _
  unfold Bitlist.toList at hmem
  rw [List.mem_filter, List.mem_range] at hmem
  exact ⟨hmem.1, hmem.2⟩

theorem maskWhite_spec : ∀ i, i < 32 →
    ((Bitlist.maskFromColour .white).testBit i = true → indexColour i = .white) := by
  decide

theorem maskBlack_spec : ∀ i, i < 32 →
    ((Bitlist.maskFromColour .black).testBit i = true → indexColour i = .black) := by
  decide

/-- Membership in a colour's index mask fixes the index's colour. -/
theorem maskFromColour_spec (c : Colour) : ∀ i, i < 32 →
    ((Bitlist.maskFromColour c).testBit i = true → indexColour i = c) := by
  cases c
  · exact maskWhite_spec
  · exact maskBlack_spec

/-- All six type masks of a piecemask fit in 32 bits. -/
def Piecemask.bounded (pm : Piecemask) : Bool :=
  decide (pm.pawns < 2 ^ 32) && decide (pm.knights < 2 ^ 32) &&
  decide (pm.bishops < 2 ^ 32) && decide (pm.rooks < 2 ^ 32) &&
  decide (pm.queens < 2 ^ 32) && decide (pm.kings < 2 ^ 32)

/-- Coherence of the square -> index view: a square's index is live and
its piecelist entry points back at the square. -/
def indexCohB (d : BoardData) : Bool :=
  (List.range 64).all fun s =>
    match d.index.get s with
    | none => true
    | some j => d.piecemask.occupied.testBit j && (d.piecelist.get j == s)

/-- Coherence of the index -> square view: a live index's square is on the
board and indexes back to it. -/
def pieceCohB (d : BoardData) : Bool :=
  (List.range 32).all fun i =>
    !d.piecemask.occupied.testBit i ||
      (decide (d.piecelist.get i < 64) &&
        (d.index.get (d.piecelist.get i) == some i))

theorem indexCoh_spec {d : BoardData} (h : indexCohB d = true) {s j : Nat}
    (hs : s < 64) (hj : d.index.get s = some j) :
    d.piecemask.occupied.testBit j = true ∧ d.piecelist.get j = s := by
  have hall := List.all_eq_true.mp h s (List.mem_range.mpr hs)
  rw [hj] at hall
  simp only [Bool.and_eq_true, beq_iff_eq] at hall
  exact hall

theorem pieceCoh_spec {d : BoardData} (h : pieceCohB d = true) {i : Nat}
    (hi : i < 32) (hocc : d.piecemask.occupied.testBit i = true) :
    d.piecelist.get i < 64 ∧ d.index.get (d.piecelist.get i) = some i := by
  have hall := List.all_eq_true.mp h i (List.mem_range.mpr hi)
  rw [hocc] at hall
  simp only [Bool.not_true, Bool.false_or, Bool.and_eq_true, decide_eq_true_eq,
    beq_iff_eq] at hall
  exact hall

/-- A live index is below 32 and occupied. -/
theorem piece_live {pm : Piecemask} (hbd : Piecemask.bounded pm = true) {i : Nat}
    {p : Piece} (hp : pm.piece i = some p) :
    i < 32 ∧ pm.occupied.testBit i = true := by
  have hb : pm.pawns < 2 ^ 32 ∧ pm.knights < 2 ^ 32 ∧ pm.bishops < 2 ^ 32 ∧
      pm.rooks < 2 ^ 32 ∧ pm.queens < 2 ^ 32 ∧ pm.kings < 2 ^ 32 := by
    simpa [Piecemask.bounded, Bool.and_eq_true, and_assoc] using hbd
  have hocc : pm.occupied.testBit i = true := by
    unfold Piecemask.piece at hp
    unfold Piecemask.occupied
    simp only [Nat.testBit_or, Bool.or_eq_true]
    by_cases h1 : pm.pawns.testBit i = true
    · exact Or.inl (Or.inl (Or.inl (Or.inl (Or.inl h1))))
    · rw [if_neg (by simpa using h1)] at hp
      by_cases h2 : pm.knights.testBit i = true
      · exact Or.inl (Or.inl (Or.inl (Or.inl (Or.inr h2))))
      · rw [if_neg (by simpa using h2)] at hp
        by_cases h3 : pm.bishops.testBit i = true
        · exact Or.inl (Or.inl (Or.inl (Or.inr h3)))
        · rw [if_neg (by simpa using h3)] at hp
          by_cases h4 : pm.rooks.testBit i = true
          · exact Or.inl (Or.inl (Or.inr h4))
          · rw [if_neg (by simpa using h4)] at hp
            by_cases h5 : pm.queens.testBit i = true
            · exact Or.inl (Or.inr h5)
            · rw [if_neg (by simpa using h5)] at hp
              by_cases h6 : pm.kings.testBit i = true
              · exact Or.inr h6
              · rw [if_neg (by simpa using h6)] at hp
                cases hp
  refine ⟨?_, hocc⟩
  by_contra hi
  have h32 : 32 ≤ i := by omega
  unfold Piecemask.occupied at hocc
  rw [Nat.testBit_or, Nat.testBit_or, Nat.testBit_or, Nat.testBit_or,
    Nat.testBit_or, testBit_high hb.1 h32, testBit_high hb.2.1 h32,
    testBit_high hb.2.2.1 h32, testBit_high hb.2.2.2.1 h32,
    testBit_high hb.2.2.2.2.1 h32, testBit_high hb.2.2.2.2.2 h32] at hocc
  simp at hocc

/-- `set_bit` does not change other indices' types. -/
theorem piece_setBit_ne (pm : Piecemask) (p : Piece) (i j : Nat) (hne : j ≠ i) :
    (pm.setBit p i).piece j = pm.piece j := by
  cases p <;>
    simp [Piecemask.setBit, Piecemask.piece, Nat.testBit_or, testBit_fromPiece,
      Ne.symm hne]

/-- `set_bit` on a free index gives it exactly the added type. -/
theorem piece_setBit_self (pm : Piecemask) (p : Piece) (i : Nat)
    (hfree : pm.occupied.testBit i = false) :
    (pm.setBit p i).piece i = some p := by
  have h6 := hfree
  unfold Piecemask.occupied at h6
  simp only [Nat.testBit_or, Bool.or_eq_false_iff] at h6
  obtain ⟨⟨⟨⟨⟨h1, h2⟩, h3⟩, h4⟩, h5⟩, h66⟩ := h6
  cases p <;>
    simp [Piecemask.setBit, Piecemask.piece, Nat.testBit_or, testBit_fromPiece,
      h1, h2, h3, h4, h5, h66]

/-- Removal does not change other indices' types. -/
theorem piece_removePiece_ne (pm : Piecemask) (i j : Nat) (hi : i < 32)
    (hne : j ≠ i) (hbd : Piecemask.bounded pm = true) :
    (pm.removePiece i).piece j = pm.piece j := by
  have hb : pm.pawns < 2 ^ 32 ∧ pm.knights < 2 ^ 32 ∧ pm.bishops < 2 ^ 32 ∧
      pm.rooks < 2 ^ 32 ∧ pm.queens < 2 ^ 32 ∧ pm.kings < 2 ^ 32 := by
    simpa [Piecemask.bounded, Bool.and_eq_true, and_assoc] using hbd
  unfold Piecemask.removePiece Piecemask.piece
  dsimp only
  rw [testBit_clear_ne hi hne hb.1, testBit_clear_ne hi hne hb.2.1,
    testBit_clear_ne hi hne hb.2.2.1, testBit_clear_ne hi hne hb.2.2.2.1,
    testBit_clear_ne hi hne hb.2.2.2.2.1, testBit_clear_ne hi hne hb.2.2.2.2.2]

/-- Removal kills the removed index. -/
theorem piece_removePiece_self (pm : Piecemask) (i : Nat) (hi : i < 32) :
    (pm.removePiece i).piece i = none := by
  unfold Piecemask.removePiece Piecemask.piece
  dsimp only
  rw [testBit_clear_self hi, testBit_clear_self hi, testBit_clear_self hi,
    testBit_clear_self hi, testBit_clear_self hi, testBit_clear_self hi]
  rfl

end Yukari

namespace Yukari

/-- Replacing one summand of the 64-square sum. -/
theorem sum_update_one (f g : Nat → Int) (s : Nat) (hs : s < 64)
    (h : ∀ t, t < 64 → t ≠ s → g t = f t) :
    ∑ t ∈ Finset.range 64, g t =
      (∑ t ∈ Finset.range 64, f t) - f s + g s := by
  have hmem : s ∈ Finset.range 64 := Finset.mem_range.mpr hs
  have hcong : ∑ t ∈ (Finset.range 64).erase s, g t =
      ∑ t ∈ (Finset.range 64).erase s, f t :=
    Finset.sum_congr rfl (fun t ht =>
      h t (Finset.mem_range.mp (Finset.mem_of_mem_erase ht))
        (Finset.ne_of_mem_erase ht))
  rw [← Finset.sum_erase_add _ g hmem, ← Finset.sum_erase_add _ f hmem, hcong]
  ring

/-- Replacing two summands of the 64-square sum. -/
theorem sum_update_two (f g : Nat → Int) (s t : Nat) (hs : s < 64) (ht : t < 64)
    (hst : s ≠ t)
    (h : ∀ u, u < 64 → u ≠ s → u ≠ t → g u = f u) :
    ∑ u ∈ Finset.range 64, g u =
      (∑ u ∈ Finset.range 64, f u) - f s - f t + g s + g t := by
  have hmem : s ∈ Finset.range 64 := Finset.mem_range.mpr hs
  have htmem : t ∈ (Finset.range 64).erase s :=
    Finset.mem_erase.mpr ⟨Ne.symm hst, Finset.mem_range.mpr ht⟩
  have hcong : ∑ u ∈ ((Finset.range 64).erase s).erase t, g u =
      ∑ u ∈ ((Finset.range 64).erase s).erase t, f u := by
    refine Finset.sum_congr rfl (fun u hu => ?_)
    have hu1 := Finset.ne_of_mem_erase hu
    have hu2 := Finset.mem_of_mem_erase hu
    exact h u (Finset.mem_range.mp (Finset.mem_of_mem_erase hu2))
      (Finset.ne_of_mem_erase hu2) hu1
  rw [← Finset.sum_erase_add _ g hmem, ← Finset.sum_erase_add _ g htmem,
    ← Finset.sum_erase_add _ f hmem, ← Finset.sum_erase_add _ f htmem, hcong]
  ring

/-- A square's feature only depends on its index entry and that entry's
type. -/
theorem sqFeat_congr (w : Nat → Int) (persp : Colour) {d d' : BoardData} {s : Nat}
    (hidx : d'.index.get s = d.index.get s)
    (hpm : ∀ j, d.index.get s = some j →
      d'.piecemask.piece j = d.piecemask.piece j) :
    sqFeat w persp d' s = sqFeat w persp d s := by
  unfold sqFeat
  rw [hidx]
  cases hj : d.index.get s with
  | none => rfl
  | some j =>
    dsimp only
    rw [hpm j hj]

/-- `featSum` as a list sum. -/
theorem featSum_eq_list (w : Nat → Int) (persp : Colour) (d : BoardData) :
    featSum w persp d = ((List.range 64).map (sqFeat w persp d)).sum := rfl

/-- Attack updates touch only the attack table. -/
theorem updateAttacks_index (d : BoardData) (sq : Square) (i : Nat) (p : Piece)
    (add : Bool) (skipDir : Option Direction) :
    (d.updateAttacks sq i p add skipDir).index = d.index := rfl

theorem updateAttacks_piecemask (d : BoardData) (sq : Square) (i : Nat) (p : Piece)
    (add : Bool) (skipDir : Option Direction) :
    (d.updateAttacks sq i p add skipDir).piecemask = d.piecemask := rfl

theorem updateSliders_index (d : BoardData) (sq : Square) (add : Bool) :
    (d.updateSliders sq add).index = d.index := rfl

theorem updateSliders_piecemask (d : BoardData) (sq : Square) (add : Bool) :
    (d.updateSliders sq add).piecemask = d.piecemask := rfl

/-- A conditional attack-table write keeps the index view. -/
theorem ite_bitlist_index (c : Prop) [Decidable c] (x : BoardData)
    (b : BitlistArray) :
    (if c then { x with bitlist := b } else x).index = x.index := by
  split <;> rfl

theorem ite_bitlist_piecemask (c : Prop) [Decidable c] (x : BoardData)
    (b : BitlistArray) :
    (if c then { x with bitlist := b } else x).piecemask = x.piecemask := by
  split <;> rfl

/-- `featSum` after adding a piece at a free square with a fresh index. -/
theorem featSum_add (w : Nat → Int) (persp : Colour) (d d' : BoardData) (p : Piece)
    (i s : Nat)
    (hidx : d'.index = d.index.setD s (some i))
    (hpm : d'.piecemask = d.piecemask.setBit p i)
    (hsz : d.index.size = 64) (hs : s < 64)
    (hempty : d.index.get s = none)
    (hfree : d.piecemask.occupied.testBit i = false)
    (hcoh : indexCohB d = true) :
    featSum w persp d' = featSum w persp d +
      w (featureIndex persp p (indexColour i) s) := by
  unfold featSum
  rw [sum_update_one (sqFeat w persp d) (sqFeat w persp d') s hs ?hoth]
  · have hfs : sqFeat w persp d s = 0 := by
      unfold sqFeat
      rw [hempty]
    have hgs : sqFeat w persp d' s = w (featureIndex persp p (indexColour i) s) := by
      unfold sqFeat
      have : d'.index.get s = some i := by
        rw [hidx]
        unfold PieceIndexArray.get
        exact getD_setD_self _ _ _ _ (by omega)
      rw [this]
      dsimp only
      rw [hpm, piece_setBit_self _ _ _ hfree]
    rw [hfs, hgs]
    ring
  case hoth =>
    intro t ht hts
    refine sqFeat_congr w persp ?_ ?_
    · rw [hidx]
      unfold PieceIndexArray.get
      exact getD_setD_ne _ _ _ _ _ hts
    · intro j hj
      rw [hpm]
      refine piece_setBit_ne _ _ _ _ ?_
      intro hji
      subst hji
      rw [(indexCoh_spec hcoh ht hj).1] at hfree
      cases hfree

/-- `featSum` after removing the piece of a live square. -/
theorem featSum_remove (w : Nat → Int) (persp : Colour) (d d' : BoardData)
    (p : Piece) (i s : Nat)
    (hidx : d'.index = d.index.setD s none)
    (hpm : d'.piecemask = d.piecemask.removePiece i)
    (hsz : d.index.size = 64) (hs : s < 64)
    (hlive : d.index.get s = some i)
    (hp : d.piecemask.piece i = some p)
    (hi : i < 32) (hbd : Piecemask.bounded d.piecemask = true)
    (hcoh : indexCohB d = true) :
    featSum w persp d' = featSum w persp d -
      w (featureIndex persp p (indexColour i) s) := by
  unfold featSum
  rw [sum_update_one (sqFeat w persp d) (sqFeat w persp d') s hs ?hoth]
  · have hfs : sqFeat w persp d s = w (featureIndex persp p (indexColour i) s) := by
      unfold sqFeat
      rw [hlive]
      dsimp only
      rw [hp]
    have hgs : sqFeat w persp d' s = 0 := by
      unfold sqFeat
      have : d'.index.get s = none := by
        rw [hidx]
        unfold PieceIndexArray.get
        exact getD_setD_self _ _ _ _ (by omega)
      rw [this]
    rw [hfs, hgs]
    ring
  case hoth =>
    intro t ht hts
    refine sqFeat_congr w persp ?_ ?_
    · rw [hidx]
      unfold PieceIndexArray.get
      exact getD_setD_ne _ _ _ _ _ hts
    · intro j hj
      rw [hpm]
      refine piece_removePiece_ne _ _ _ hi ?_ hbd
      intro hji
      subst hji
      have h1 := (indexCoh_spec hcoh ht hj).2
      have h2 := (indexCoh_spec hcoh hs hlive).2
      exact hts (by rw [← h1, h2])

/-- `featSum` after moving a piece from a live square to a free square. -/
theorem featSum_move (w : Nat → Int) (persp : Colour) (d d' : BoardData)
    (p : Piece) (i fromSq toSq : Nat)
    (hidx : d'.index = (d.index.setD fromSq none).setD toSq (some i))
    (hpm : d'.piecemask = d.piecemask)
    (hsz : d.index.size = 64) (hfrom : fromSq < 64) (hto : toSq < 64)
    (hne : fromSq ≠ toSq)
    (hlive : d.index.get fromSq = some i)
    (hp : d.piecemask.piece i = some p)
    (hemptyTo : d.index.get toSq = none)
    (hcoh : indexCohB d = true) :
    featSum w persp d' = featSum w persp d -
      w (featureIndex persp p (indexColour i) fromSq) +
      w (featureIndex persp p (indexColour i) toSq) := by
  unfold featSum
  rw [sum_update_two (sqFeat w persp d) (sqFeat w persp d') fromSq toSq hfrom hto
    hne ?hoth]
  · have hf1 : sqFeat w persp d fromSq =
        w (featureIndex persp p (indexColour i) fromSq) := by
      unfold sqFeat
      rw [hlive]
      dsimp only
      rw [hp]
    have hf2 : sqFeat w persp d toSq = 0 := by
      unfold sqFeat
      rw [hemptyTo]
    have hg1 : sqFeat w persp d' fromSq = 0 := by
      unfold sqFeat
      have : d'.index.get fromSq = none := by
        rw [hidx]
        unfold PieceIndexArray.get
        rw [getD_setD_ne _ _ _ _ _ hne]
        exact getD_setD_self _ _ _ _ (by omega)
      rw [this]
    have hg2 : sqFeat w persp d' toSq =
        w (featureIndex persp p (indexColour i) toSq) := by
      unfold sqFeat
      have : d'.index.get toSq = some i := by
        rw [hidx]
        unfold PieceIndexArray.get
        refine getD_setD_self _ _ _ _ ?_
        rw [size_setD]
        omega
      rw [this]
      dsimp only
      rw [hpm, hp]
    rw [hf1, hf2, hg1, hg2]
    ring
  case hoth =>
    intro u hu hu1 hu2
    refine sqFeat_congr w persp ?_ ?_
    · rw [hidx]
      unfold PieceIndexArray.get
      rw [getD_setD_ne _ _ _ _ _ hu2]
      exact getD_setD_ne _ _ _ _ _ hu1
    · intro j hj
      rw [hpm]

end Yukari

namespace Yukari

/-- Index colour against the white-range test. -/
theorem indexIsWhite_true {i : Nat} (h : indexIsWhite i = true) :
    indexColour i = .white := by
  unfold indexIsWhite at h
  unfold indexColour
  simp only [decide_eq_true_eq] at h
  rw [if_pos h]

theorem indexIsWhite_false {i : Nat} (h : indexIsWhite i = false) :
    indexColour i = .black := by
  unfold indexIsWhite at h
  unfold indexColour
  simp only [decide_eq_false_iff_not] at h
  rw [if_neg h]

/-- The accumulator-rebuild loop of `move_piece` adds, to the chosen
perspective only, the feature sum of every listed square. -/
theorem rebuild_fold (w : Nat → Int) (dA : BoardData) (fw : Bool) :
    ∀ (l : List Nat) (e : EvalAcc),
      l.foldl (fun e sq =>
        match dA.index.get sq with
        | none => e
        | some j =>
          match dA.pieceFromBit j with
          | none => e
          | some pj => evalAddPieceForAcc w e pj sq (indexColour j) fw) e =
      (if fw then
        { e with white := e.white + (l.map (sqFeat w .white dA)).sum }
       else
        { e with black := e.black + (l.map (sqFeat w .black dA)).sum }) := by
  intro l
  induction l with
  | nil =>
    intro e
    cases fw <;> simp
  | cons x xs ih =>
    intro e
    rw [List.foldl_cons, ih, List.map_cons, List.sum_cons]
    cases hx : dA.index.get x with
    | none =>
      have hsw : sqFeat w .white dA x = 0 := by
        unfold sqFeat
        rw [hx]
      have hsb : sqFeat w .black dA x = 0 := by
        unfold sqFeat
        rw [hx]
      cases fw <;> simp [hx, hsw, hsb]
    | some j =>
      cases hpj : dA.pieceFromBit j with
      | none =>
        have hpj2 : dA.piecemask.piece j = none := hpj
        have hsw : sqFeat w .white dA x = 0 := by
          unfold sqFeat
          rw [hx]
          dsimp only
          rw [hpj2]
        have hsb : sqFeat w .black dA x = 0 := by
          unfold sqFeat
          rw [hx]
          dsimp only
          rw [hpj2]
        cases fw <;> simp [hx, hpj, hsw, hsb]
      | some pj =>
        have hpj2 : dA.piecemask.piece j = some pj := hpj
        have hsw : sqFeat w .white dA x =
            w (featureIndex .white pj (indexColour j) x) := by
          unfold sqFeat
          rw [hx]
          dsimp only
          rw [hpj2]
        have hsb : sqFeat w .black dA x =
            w (featureIndex .black pj (indexColour j) x) := by
          unfold sqFeat
          rw [hx]
          dsimp only
          rw [hpj2]
        cases fw <;>
          simp [hx, hpj, hsw, hsb, evalAddPieceForAcc] <;>
          ring

end Yukari

namespace Yukari

/-- `add_piece` preserves the accumulator invariant. -/
theorem addPieceE_invariant (w : Nat → Int) (bias : Int) (d : BoardData)
    (e : EvalAcc) (p : Piece) (c : Colour) (s : Nat) (u : Bool) (d' : BoardData)
    (e' : EvalAcc)
    (hinv : accInvariant w bias d e)
    (hsz : d.index.size = 64)
    (hcoh : indexCohB d = true)
    (hs : s < 64)
    (hempty : d.index.get s = none)
    (hm : BoardData.addPieceE w d e p c s u = some (d', e')) :
    accInvariant w bias d' e' := by
  unfold BoardData.addPieceE BoardData.addPiece Piecemask.addPiece at hm
  rcases hpk : Bitlist.peek (Bitlist.invert d.piecemask.occupied &&&
      Bitlist.maskFromColour c) with _ | i
  · rw [hpk] at hm
    simp at hm
  · rw [hpk] at hm
    simp only [Option.pure_def, Option.some_bind, Option.some.injEq,
      Prod.mk.injEq] at hm
    rcases hm with ⟨rfl, rfl⟩
    obtain ⟨hi32, hbit⟩ := peek_spec hpk
    rw [Nat.testBit_and, Bool.and_eq_true] at hbit
    have hocc : d.piecemask.occupied.testBit i = false := by
      have := hbit.1
      rw [testBit_invert hi32] at this
      simpa using this
    have hcol : indexColour i = c := maskFromColour_spec c i hi32 hbit.2
    set dbase : BoardData := { d with
      piecemask := d.piecemask.setBit p i
      piecelist := d.piecelist.addPiece i s
      index := d.index.addPiece i s
      hash := Zobrist.addPiece c p s d.hash } with hdbase
    have hidx : (if u then
        ((dbase.updateAttacks s i p true none).updateSliders s false)
      else dbase).index = d.index.setD s (some i) := by
      cases u <;>
        simp [updateSliders_index, updateAttacks_index, hdbase,
          PieceIndexArray.addPiece]
    have hpm : (if u then
        ((dbase.updateAttacks s i p true none).updateSliders s false)
      else dbase).piecemask = d.piecemask.setBit p i := by
      cases u <;> simp [updateSliders_piecemask, updateAttacks_piecemask, hdbase]
    have hW := featSum_add w .white d _ p i s hidx hpm hsz hs hempty hocc hcoh
    have hB := featSum_add w .black d _ p i s hidx hpm hsz hs hempty hocc hcoh
    constructor
    · show (evalAddPiece w e p s c).white = _
      rw [evalAddPiece]
      dsimp only
      rw [hinv.1, hW, hcol]
      ring
    · show (evalAddPiece w e p s c).black = _
      rw [evalAddPiece]
      dsimp only
      rw [hinv.2, hB, hcol]
      ring

end Yukari

namespace Yukari

/-- `remove_piece` preserves the accumulator invariant. -/
theorem removePieceE_invariant (w : Nat → Int) (bias : Int) (d : BoardData)
    (e : EvalAcc) (i : Nat) (u : Bool) (d' : BoardData) (e' : EvalAcc)
    (hinv : accInvariant w bias d e)
    (hsz : d.index.size = 64)
    (hcoh : indexCohB d = true)
    (hpcoh : pieceCohB d = true)
    (hbd : Piecemask.bounded d.piecemask = true)
    (hm : BoardData.removePieceE w d e i u = some (d', e')) :
    accInvariant w bias d' e' := by
  unfold BoardData.removePieceE BoardData.removePiece at hm
  rcases hp : d.pieceFromBit i with _ | p
  · rw [hp] at hm
    simp at hm
  · rw [hp] at hm
    simp only [Option.pure_def, Option.some_bind, Option.some.injEq,
      Prod.mk.injEq] at hm
    rcases hm with ⟨rfl, rfl⟩
    have hp2 : d.piecemask.piece i = some p := hp
    obtain ⟨hi32, hocc⟩ := piece_live hbd hp2
    obtain ⟨hs64, hback⟩ := pieceCoh_spec hpcoh hi32 hocc
    set s : Nat := d.squareOfPiece i with hsdef
    have hs64x : s < 64 := hs64
    have hbackx : d.index.get s = some i := hback
    set dbase : BoardData := { d with
      piecemask := d.piecemask.removePiece i
      piecelist := d.piecelist.removePiece i s
      index := d.index.removePiece i s
      hash := Zobrist.addPiece (indexColour i) p s d.hash } with hdbase
    have hidx : (if u then
        ((dbase.updateAttacks s i p false none).updateSliders s true)
      else dbase).index = d.index.setD s none := by
      cases u <;>
        simp [updateSliders_index, updateAttacks_index, hdbase,
          PieceIndexArray.removePiece]
    have hpm : (if u then
        ((dbase.updateAttacks s i p false none).updateSliders s true)
      else dbase).piecemask = d.piecemask.removePiece i := by
      cases u <;> simp [updateSliders_piecemask, updateAttacks_piecemask, hdbase]
    have hW := featSum_remove w .white d _ p i s hidx hpm hsz hs64x hbackx hp2
      hi32 hbd hcoh
    have hB := featSum_remove w .black d _ p i s hidx hpm hsz hs64x hbackx hp2
      hi32 hbd hcoh
    constructor
    · show (evalRemovePiece w e p s (indexColour i)).white = _
      rw [evalRemovePiece]
      dsimp only
      rw [hinv.1, hW]
      ring
    · show (evalRemovePiece w e p s (indexColour i)).black = _
      rw [evalRemovePiece]
      dsimp only
      rw [hinv.2, hB]
      ring

end Yukari

namespace Yukari

/-- `move_piece` updates only the board views, shifting the moved index. -/
theorem movePiece_proj (d : BoardData) (fromSq toSq i : Nat) (p : Piece)
    (hi : d.index.get fromSq = some i) (hp : d.pieceFromBit i = some p)
    (d2 : BoardData) (hm : d.movePiece fromSq toSq = some d2) :
    d2.index = (d.index.setD fromSq none).setD toSq (some i) ∧
    d2.piecemask = d.piecemask := by
  unfold BoardData.movePiece at hm
  rw [hi] at hm
  simp only [Option.bind_eq_bind, Option.some_bind] at hm
  rw [hp] at hm
  simp only [Option.pure_def, Option.bind_eq_bind, Option.some_bind,
    Option.some.injEq] at hm
  subst hm
  constructor
  · simp [updateSliders_index, updateAttacks_index, apply_ite BoardData.index,
      PieceIndexArray.movePiece]
  · simp [updateSliders_piecemask, updateAttacks_piecemask,
      apply_ite BoardData.piecemask]

/-- `move_piece` preserves the accumulator invariant, on both the
incremental path and the king-crossing rebuild path. -/
theorem movePieceE_invariant (w : Nat → Int) (bias : Int) (d : BoardData)
    (e : EvalAcc) (fromSq toSq : Nat) (d' : BoardData) (e' : EvalAcc)
    (hinv : accInvariant w bias d e)
    (hsz : d.index.size = 64)
    (hcoh : indexCohB d = true)
    (hfrom : fromSq < 64) (hto : toSq < 64) (hne : fromSq ≠ toSq)
    (hempty : d.index.get toSq = none)
    (hm : BoardData.movePieceE w bias d e fromSq toSq = some (d', e')) :
    accInvariant w bias d' e' := by
  unfold BoardData.movePieceE at hm
  rcases hi : d.index.get fromSq with _ | i
  · rw [hi] at hm
    simp at hm
  rw [hi] at hm
  simp only [Option.bind_eq_bind, Option.some_bind] at hm
  rcases hp : d.pieceFromBit i with _ | p
  · rw [hp] at hm
    simp at hm
  rw [hp] at hm
  simp only [Option.bind_eq_bind, Option.some_bind] at hm
  rcases hmv : d.movePiece fromSq toSq with _ | d2
  · rw [hmv] at hm
    simp at hm
  rw [hmv] at hm
  simp only [Option.pure_def, Option.bind_eq_bind, Option.some_bind,
    Option.some.injEq, Prod.mk.injEq] at hm
  rcases hm with ⟨rfl, rfl⟩
  have hp2 : d.piecemask.piece i = some p := hp
  obtain ⟨hidx, hpm⟩ := movePiece_proj d fromSq toSq i p hi hp d2 hmv
  have hW := featSum_move w .white d d2 p i fromSq toSq hidx hpm hsz hfrom hto
    hne hi hp2 hempty hcoh
  have hB := featSum_move w .black d d2 p i fromSq toSq hidx hpm hsz hfrom hto
    hne hi hp2 hempty hcoh
  unfold movePieceEval
  dsimp only
  by_cases hcr : (p == Piece.king &&
      ((Square.file fromSq ≥ 4 && Square.file toSq ≤ 3) ||
        (Square.file fromSq ≤ 3 && Square.file toSq ≥ 4))) = true
  · rw [if_pos hcr]
    rw [rebuild_fold w d2 (indexIsWhite i) (List.range 64)]
    cases hw : indexIsWhite i with
    | true =>
      have hcw : indexColour i = .white := indexIsWhite_true hw
      rw [hcw]
      constructor
      · show _ = bias + featSum w .white d2
        simp [evalResetColour, evalAddPieceForAcc, evalRemovePieceForAcc, hw,
          featSum_eq_list]
      · show _ = bias + featSum w .black d2
        simp [evalResetColour, evalAddPieceForAcc, evalRemovePieceForAcc, hw]
        rw [hcw] at hB
        rw [hinv.2, hB]
        ring
    | false =>
      have hcb : indexColour i = .black := indexIsWhite_false hw
      rw [hcb]
      constructor
      · show _ = bias + featSum w .white d2
        simp [evalResetColour, evalAddPieceForAcc, evalRemovePieceForAcc, hw]
        rw [hcb] at hW
        rw [hinv.1, hW]
        ring
      · show _ = bias + featSum w .black d2
        simp [evalResetColour, evalAddPieceForAcc, evalRemovePieceForAcc, hw,
          featSum_eq_list]
  · rw [if_neg hcr]
    constructor
    · show (evalMovePiece w e p fromSq toSq (indexColour i)).white = _
      unfold evalMovePiece evalAddPiece evalRemovePiece
      dsimp only
      rw [hinv.1, hW]
      ring
    · show (evalMovePiece w e p fromSq toSq (indexColour i)).black = _
      unfold evalMovePiece evalAddPiece evalRemovePiece
      dsimp only
      rw [hinv.2, hB]
      ring

end Yukari

namespace Yukari

/-- C3: both NNUE accumulators equal the network bias plus the sum of the
feature-weight columns selected by the current (piece, square, colour)
tuples, each from its own perspective, and this invariant is preserved by
`add_piece`, `remove_piece` and `move_piece` - including the king-crossing
path of `BoardData::move_piece`, where the moving side's accumulator is
reset to the bias and rebuilt by re-adding every piece's feature while the
other perspective gets the incremental king update.  The board is assumed
coherent: the index view has 64 cells, squares point at live indices whose
piecelist entry points back, and the added/target square is empty. -/
theorem c3_accumulator_invariant (w : Nat → Int) (bias : Int) (d : BoardData)
    (e : EvalAcc) :
    (∀ p c s u d' e',
      accInvariant w bias d e → d.index.size = 64 → indexCohB d = true →
      s < 64 → d.index.get s = none →
      BoardData.addPieceE w d e p c s u = some (d', e') →
      accInvariant w bias d' e') ∧
    (∀ i u d' e',
      accInvariant w bias d e → d.index.size = 64 → indexCohB d = true →
      pieceCohB d = true → Piecemask.bounded d.piecemask = true →
      BoardData.removePieceE w d e i u = some (d', e') →
      accInvariant w bias d' e') ∧
    (∀ fromSq toSq d' e',
      accInvariant w bias d e → d.index.size = 64 → indexCohB d = true →
      fromSq < 64 → toSq < 64 → fromSq ≠ toSq → d.index.get toSq = none →
      BoardData.movePieceE w bias d e fromSq toSq = some (d', e') →
      accInvariant w bias d' e') := by
  refine ⟨?_, ?_, ?_⟩
  · intro p c s u d' e' h1 h2 h3 h4 h5 h6
    exact addPieceE_invariant w bias d e p c s u d' e' h1 h2 h3 h4 h5 h6
  · intro i u d' e' h1 h2 h3 h4 h5 h6
    exact removePieceE_invariant w bias d e i u d' e' h1 h2 h3 h4 h5 h6
  · intro fromSq toSq d' e' h1 h2 h3 h4 h5 h6 h7 h8
    exact movePieceE_invariant w bias d e fromSq toSq d' e' h1 h2 h3 h4 h5 h6
      h7 h8

/-- A bare two-kings board built directly: white king e1 at index 0, black
king e8 at index 16. -/
def c3Data : BoardData :=
  { bitlist := BitlistArray.new
    piecelist := (Piecelist.new.setD 0 4).setD 16 60
    index := (PieceIndexArray.new.setD 4 (some 0)).setD 60 (some 16)
    piecemask := ⟨0, 0, 0, 0, 0, (1 <<< 0) ||| (1 <<< 16)⟩
    hash := 0 }

/-- All-ones weight column. -/
def c3W : Nat → Int := fun _ => 1

def c3added : BoardData × EvalAcc :=
  (BoardData.addPieceE c3W c3Data ⟨2, 2⟩ .pawn .white 8 true).getD
    (BoardData.new, ⟨0, 0⟩)

def c3removed : BoardData × EvalAcc :=
  (BoardData.removePieceE c3W c3Data ⟨2, 2⟩ 0 true).getD (BoardData.new, ⟨0, 0⟩)

def c3moved : BoardData × EvalAcc :=
  (BoardData.movePieceE c3W 0 c3Data ⟨2, 2⟩ 4 3).getD (BoardData.new, ⟨0, 0⟩)

/-- Witness for C3 at concrete inputs: on the two-kings board with
all-ones weights and zero bias, a pawn drop on a2, the removal of the
white king, and the king move e1-d1 (which crosses the file-D/E boundary
and takes the rebuild path) all preserve the accumulator invariant. -/
theorem c3_witness :
    accInvariant c3W 0 c3added.1 c3added.2 ∧
    accInvariant c3W 0 c3removed.1 c3removed.2 ∧
    accInvariant c3W 0 c3moved.1 c3moved.2 := by
  obtain ⟨ha, hr, hm⟩ := c3_accumulator_invariant c3W 0 c3Data ⟨2, 2⟩
  refine ⟨?_, ?_, ?_⟩
  · exact ha .pawn .white 8 true c3added.1 c3added.2 ⟨by decide, by decide⟩
      (by decide) (by decide) (by decide) (by decide) (by decide)
  · exact hr 0 true c3removed.1 c3removed.2 ⟨by decide, by decide⟩ (by decide)
      (by decide) (by decide) (by decide) (by decide)
  · exact hm 4 3 c3moved.1 c3moved.2 ⟨by decide, by decide⟩ (by decide)
      (by decide) (by decide) (by decide) (by decide) (by decide) (by decide)

end Yukari
